import Mathlib

/-!
Verification of the mailing-list-parser ingestion engine.

This file contains a shallow embedding, in Lean 4, of the pure core of the
Rust sources under `src/src-tauri/src/`:

* `mail-parser.rs` — header parsing, subject normalisation, threading info,
  `parse_email_from_content`;
* `database/threading.rs` — series-key extraction, the four-tier parent
  discovery of `build_thread_relationships`, and the batched BFS of
  `build_all_threads_batched`;
* `database/patches.rs` — the parameter-bounded chunking and the
  `ON CONFLICT (message_id) DO NOTHING` insert of the patch writer;
* `database/population.rs` — the dedup/early-return prefix of
  `process_commit_batches`.

Strings are modelled as `List Char` (with `String` wrappers where the source
API takes `String`); Rust `i64`/`i32` values that are only compared and
copied are modelled as `Int`; timestamps (`chrono::DateTime<Utc>`) are
modelled as `Int` since the code only ever compares them. Database effects
are made explicit: the set of `message_id`s present in the `patches` table
is a `List String`, and `ON CONFLICT DO NOTHING` is a fold that skips
already-present keys.  Calls into external crates (`quoted_printable`,
`base64`) are abstracted as function parameters, since the claims under
study never depend on the decoded bytes themselves.
-/

/-! ## Generic character and list helpers -/

/-- Whitespace test used throughout (models Rust `char::is_whitespace` /
regex `\s` restricted to the ASCII whitespace the corpus contains). -/
def isWs (c : Char) : Bool := c.isWhitespace

/-- Rust `str::trim_start`. -/
def trimStartL (l : List Char) : List Char := l.dropWhile isWs

/-- Rust `str::trim_end`. -/
def trimEndL (l : List Char) : List Char := (l.reverse.dropWhile isWs).reverse

/-- Rust `str::trim`. -/
def trimL (l : List Char) : List Char := trimEndL (trimStartL l)

/-- Rust `str::to_lowercase` (ASCII case mapping). -/
def toLowerL (l : List Char) : List Char := l.map Char.toLower

/-- Rust `str::starts_with` on char lists: `isPrefixL pat l` is true iff
`pat` is a prefix of `l`. -/
def isPrefixL : List Char → List Char → Bool
  | [], _ => true
  | _ :: _, [] => false
  | a :: as, b :: bs => a == b && isPrefixL as bs

/-- Helper for `splitWsL`: `cur` is the (reversed) pending token. -/
def splitWsAux (cur : List Char) : List Char → List (List Char)
  | [] => if cur = [] then [] else [cur.reverse]
  | c :: rest =>
      if isWs c then
        if cur = [] then splitWsAux [] rest
        else cur.reverse :: splitWsAux [] rest
      else splitWsAux (c :: cur) rest

/-- Rust `str::split_whitespace`: maximal non-whitespace runs, in order. -/
def splitWsL (l : List Char) : List (List Char) := splitWsAux [] l

/-- Strip one trailing carriage return, as Rust `str::lines` does on a
newline-terminated line. -/
def stripCr (l : List Char) : List Char :=
  match l.reverse with
  | '\r' :: rest => rest.reverse
  | _ => l

/-- Split at every `\n`, stripping a `\r` immediately before it; the final
unterminated segment is kept verbatim. -/
def splitLinesAux (cur : List Char) : List Char → List (List Char)
  | [] => [cur]
  | c :: rest =>
      if c = '\n' then stripCr cur :: splitLinesAux [] rest
      else splitLinesAux (cur ++ [c]) rest

/-- The lines of an email content, Rust `email_content.lines()` (a final
trailing newline does not produce an extra empty line). -/
def linesOf (l : List Char) : List (List Char) :=
  match (splitLinesAux [] l).reverse with
  | [] => []
  | last :: front => if last = [] then front.reverse else (last :: front).reverse

/-! ## Association-list models of `HashMap` -/

/-- `HashMap::insert`: overwrite the value when the key is present,
append otherwise.  Keys stay unique in maps built only by `hmInsert`. -/
def hmInsert {β : Type} (m : List (String × β)) (k : String) (v : β) :
    List (String × β) :=
  if m.any (fun p => p.1 == k) then
    m.map (fun p => if p.1 == k then (k, v) else p)
  else m ++ [(k, v)]

/-- `HashMap::get`. -/
def hmGet {β : Type} (m : List (String × β)) (k : String) : Option β :=
  (m.find? (fun p => p.1 == k)).map (fun p => p.2)

/-- `HashMap::entry(k).or_insert_with(Vec::new).push(v)`. -/
def hmPush (m : List (String × List Int)) (k : String) (v : Int) :
    List (String × List Int) :=
  if m.any (fun p => p.1 == k) then
    m.map (fun p => if p.1 == k then (k, p.2 ++ [v]) else p)
  else m ++ [(k, [v])]

/-! ## mail-parser.rs -/

/-- `CommitMetadata` from `git-parser.rs`. -/
structure CommitMetadata where
  commit_hash : String
  author_name : String
  author_email : String
  subject : String
  deriving Repr, DecidableEq

/-- `EmailInfo` from `mail-parser.rs` (the `headers` map is carried as an
association list). -/
structure EmailInfo where
  commit_hash : String
  subject : String
  normalized_subject : String
  from_header : String
  author_email : String
  author_first_name : String
  author_last_name : Option String
  author_display_name : String
  to_header : String
  date : String
  message_id : String
  body : String
  headers : List (String × String)
  in_reply_to : Option String
  thread_references : List String
  is_reply : Bool
  deriving Repr, DecidableEq

/-- `ParseError` from `mail-parser.rs`. -/
structure ParseError where
  message : String
  deriving Repr, DecidableEq

/-- One of the six reply/forward markers stripped by `normalize_subject`,
checked in source order; returns the first marker that is a prefix of `l`
(the body of the `for prefix in &prefixes` loop). -/
def replyMarkHit (l : List Char) : Option (List Char) :=
  if isPrefixL "re:".toList l then some "re:".toList
  else if isPrefixL "fwd:".toList l then some "fwd:".toList
  else if isPrefixL "fw:".toList l then some "fw:".toList
  else if isPrefixL "aw:".toList l then some "aw:".toList
  else if isPrefixL "[patch]".toList l then some "[patch]".toList
  else if isPrefixL "[rfc]".toList l then some "[rfc]".toList
  else none

/-- The prefix-stripping loop of `normalize_subject` (`mail-parser.rs`
lines 169–181), with explicit fuel so the recursion is structural: while
some marker is a prefix, drop it and trim leading whitespace.  Each
successful strip removes at least three characters, so `l.length` is
always enough fuel. -/
def stripReplyMarksAux : Nat → List Char → List Char
  | 0, l => l
  | fuel + 1, l =>
      match replyMarkHit l with
      | none => l
      | some p => stripReplyMarksAux fuel (trimStartL (l.drop p.length))

/-- The prefix-stripping loop of `normalize_subject`, run to completion. -/
def stripReplyMarks (l : List Char) : List Char := stripReplyMarksAux l.length l

/-- The whitespace-collapsing step of `normalize_subject`
(`regex \s+` replaced by a single space): a whitespace character whose
successor is also whitespace is dropped, and the last character of each
whitespace run becomes a single space. -/
def collapseWsL : List Char → List Char
  | [] => []
  | [c] => if isWs c then [' '] else [c]
  | c :: d :: rest =>
      if isWs c then
        if isWs d then collapseWsL (d :: rest)
        else ' ' :: collapseWsL (d :: rest)
      else c :: collapseWsL (d :: rest)

/-- `normalize_subject` from `mail-parser.rs` on char lists:
trim, lowercase, iteratively strip reply/forward markers, collapse
whitespace runs to single spaces, trim again. -/
def normalizeSubjectL (l : List Char) : List Char :=
  trimL (collapseWsL (stripReplyMarks (toLowerL (trimL l))))

/-- `normalize_subject` from `mail-parser.rs`. -/
def normalize_subject (s : String) : String := (normalizeSubjectL s.toList).asString

/-- `sanitize_string` from `mail-parser.rs`: drop NUL bytes and U+FFFD. -/
def sanitize_string (s : String) : String :=
  (s.toList.filter (fun c => c ≠ '\x00' ∧ c ≠ '�')).asString

/-- `sanitize_message_id` from `mail-parser.rs`: trim, then strip all
leading `<` and all trailing `>`. -/
def sanitize_message_id (s : String) : String :=
  ((((trimL s.toList).dropWhile (fun c => c == '<')).reverse.dropWhile
    (fun c => c == '>')).reverse).asString

/-- Whether a character matches the header-name class `[A-Za-z-]` of the
header regex in `parse_email_headers`. -/
def isHeaderNameChar (c : Char) : Bool :=
  (('A' ≤ c ∧ c ≤ 'Z') ∨ ('a' ≤ c ∧ c ≤ 'z') ∨ c = '-')

/-- The header regex `^([A-Za-z-]+):\s*(.+)$` of `parse_email_headers`,
applied to a trimmed line: a maximal nonempty `[A-Za-z-]` run, a colon,
then (after greedy `\s*` with the usual backtracking into `(.+)`) a
nonempty remainder.  Returns the lowercased name and the trimmed value,
exactly what lines 88–94 of `mail-parser.rs` store. -/
def headerLineMatch (line : List Char) : Option (String × String) :=
  let t := trimL line
  let name := t.takeWhile isHeaderNameChar
  let rest := t.drop name.length
  match name, rest with
  | [], _ => none
  | _ :: _, ':' :: r => if r = [] then none
      else some ((toLowerL name).asString, (trimL r).asString)
  | _ :: _, _ => none

/-- State step of the header loop in `parse_email_headers`: processes one
line given the accumulated map and the pending `current_header`. -/
def parseHeadersLoop (headers : List (String × String))
    (cur : Option (String × String)) (lines : List (List Char)) :
    List (String × String) :=
  match lines with
  | [] =>
      match cur with
      | some kv => hmInsert headers kv.1 kv.2
      | none => headers
  | line :: rest =>
      if trimL line = [] then
        match cur with
        | some kv => hmInsert headers kv.1 kv.2
        | none => headers
      else if isPrefixL [' '] line || isPrefixL ['\t'] line then
        match cur with
        | some kv =>
            parseHeadersLoop headers
              (some (kv.1, kv.2 ++ " " ++ (trimL line).asString)) rest
        | none => parseHeadersLoop headers none rest
      else
        let headers2 := match cur with
          | some kv => hmInsert headers kv.1 kv.2
          | none => headers
        parseHeadersLoop headers2 (headerLineMatch line) rest

/-- `parse_email_headers` from `mail-parser.rs`. -/
def parse_email_headers (email_content : String) : List (String × String) :=
  parseHeadersLoop [] none (linesOf email_content.toList)

/-- `extract_email_body` from `mail-parser.rs`: all lines after the first
whitespace-only line, joined by `\n` and trimmed. -/
def extract_email_body (email_content : String) : String :=
  let lines := linesOf email_content.toList
  let body := (lines.dropWhile (fun line => trimL line ≠ [])).drop 1
  (trimL (List.intercalate ['\n'] body)).asString

/-- Substring containment, Rust `str::contains`. -/
def containsSub (hay needle : List Char) : Bool :=
  (List.range (hay.length + 1)).any (fun i => isPrefixL needle (hay.drop i))

/-- `extract_and_decode_body` from `mail-parser.rs`.  The external crates
`quoted_printable` and `base64` are abstracted as the function parameters
`qpDecode` and `b64Decode` (returning `none` on a decode error, in which
case the raw body is kept, mirroring the `Err` fallback branches). -/
def extract_and_decode_body (qpDecode b64Decode : String → Option String)
    (email_content : String) (headers : List (String × String)) : String :=
  let raw_body := extract_email_body email_content
  match hmGet headers "content-transfer-encoding" with
  | some encoding =>
      let enc := (toLowerL encoding.toList)
      if containsSub enc "quoted-printable".toList then
        match qpDecode raw_body with
        | some decoded => decoded
        | none => raw_body
      else if containsSub enc "base64".toList then
        match b64Decode ((trimL raw_body.toList).asString) with
        | some decoded => decoded
        | none => raw_body
      else raw_body
  | none => raw_body

/-- `normalize_name` from `mail-parser.rs`: drop quote/bracket characters,
then re-join the whitespace-split words with single spaces. -/
def normalize_name (name : String) : String :=
  let cleaned := name.toList.filter (fun c =>
    c ≠ '"' ∧ c ≠ '\'' ∧ c ≠ '`' ∧ c ≠ '(' ∧ c ≠ ')' ∧ c ≠ '[' ∧ c ≠ ']')
  String.intercalate " " ((splitWsL cleaned).map (fun w => w.asString))

/-- `parse_name_components` from `mail-parser.rs`. -/
def parse_name_components (full_name : String) :
    String × Option String × String :=
  let normalized := normalize_name full_name
  let parts := (splitWsL normalized.toList).map (fun l => l.asString)
  match parts with
  | [] => ("Unknown", none, "Unknown")
  | [single] => (single, none, single)
  | first :: restParts =>
      let last := String.intercalate " " restParts
      (first, some last, first ++ " " ++ last)

/-- `parse_threading_info` from `mail-parser.rs`: returns
`(in_reply_to, references, is_reply)`; `is_reply` is computed from the
`subject` HEADER of the raw email, not from commit metadata. -/
def parse_threading_info (headers : List (String × String)) :
    Option String × List String × Bool :=
  let in_reply_to := (hmGet headers "in-reply-to").map sanitize_message_id
  let references :=
    match hmGet headers "references" with
    | some refs =>
        ((splitWsL refs.toList).map
          (fun idChars => sanitize_message_id idChars.asString)).filter
          (fun id => id ≠ "")
    | none => []
  let subject := (hmGet headers "subject").getD ""
  let is_reply := isPrefixL "re:".toList (toLowerL (trimL subject.toList))
  (in_reply_to, references, is_reply)

/-- `parse_email_from_content` from `mail-parser.rs`.  The body decoders
are abstracted (see `extract_and_decode_body`); everything else follows
the source line by line.  The source never constructs a `ParseError` on
this path: the function ends in `Ok(email_info)`. -/
def parse_email_from_content (qpDecode b64Decode : String → Option String)
    (commit_hash : String) (email_content : String)
    (metadata : CommitMetadata) : Except ParseError EmailInfo :=
  let headers := parse_email_headers email_content
  let body := extract_and_decode_body qpDecode b64Decode email_content headers
  let subject := metadata.subject
  let normalized_subject := normalize_subject subject
  let author_email := (toLowerL metadata.author_email.toList).asString
  let author_name := metadata.author_name
  let comps := parse_name_components author_name
  let from_header := author_name ++ " <" ++ author_email ++ ">"
  let tinfo := parse_threading_info headers
  Except.ok {
    commit_hash := commit_hash
    subject := sanitize_string subject
    normalized_subject := sanitize_string normalized_subject
    from_header := sanitize_string from_header
    author_email := author_email
    author_first_name := comps.1
    author_last_name := comps.2.1
    author_display_name := comps.2.2
    to_header := sanitize_string ((hmGet headers "to").getD "Unknown")
    date := sanitize_string ((hmGet headers "date").getD "Unknown")
    message_id := sanitize_message_id
      ((hmGet headers "message-id").getD ("commit-" ++ commit_hash))
    body := sanitize_string body
    headers := headers
    in_reply_to := tinfo.1
    thread_references := tinfo.2.1
    is_reply := tinfo.2.2
  }

/-! ## database/threading.rs -/

/-- Length of the leading whitespace run (regex `\s`). -/
def wsRunLen (l : List Char) : Nat := (l.takeWhile isWs).length

/-- Length of the leading `[^\]]` run. -/
def nonRbRunLen (l : List Char) : Nat :=
  (l.takeWhile (fun c => c ≠ ']')).length

/-- Length of the leading digit run (regex `\d`). -/
def digRunLen (l : List Char) : Nat := (l.takeWhile Char.isDigit).length

/-- Candidate lengths for a greedy `+` quantifier over a run of length
`run`, in backtracking preference order: longest first, at least one. -/
def greedyLens (run : Nat) : List Nat := (List.range run).map (fun i => run - i)

/-- A match of the regex `\[PATCH\s+([^\]]*?)\s+\d+/\d+\]` anchored at the
head of `l`, with Rust-regex (leftmost-first) capture semantics: greedy
sub-patterns try longest first, the lazy group shortest first.  Returns
the text of capture group 1. -/
def seriesMatchAt (l : List Char) : Option (List Char) :=
  if isPrefixL "[PATCH".toList l then
    let r0 := l.drop 6
    (greedyLens (wsRunLen r0)).findSome? (fun n1 =>
      let r1 := r0.drop n1
      (List.range (nonRbRunLen r1 + 1)).findSome? (fun n2 =>
        let r2 := r1.drop n2
        (greedyLens (wsRunLen r2)).findSome? (fun n3 =>
          let r3 := r2.drop n3
          (greedyLens (digRunLen r3)).findSome? (fun n4 =>
            match r3.drop n4 with
            | '/' :: r5 =>
                (greedyLens (digRunLen r5)).findSome? (fun n6 =>
                  match r5.drop n6 with
                  | ']' :: _ => some (r1.take n2)
                  | _ => none)
            | _ => none))))
  else none

/-- Leftmost match: try `seriesMatchAt` at every position, left to right. -/
def seriesScan (l : List Char) : Option (List Char) :=
  match seriesMatchAt l with
  | some g => some g
  | none =>
      match l with
      | [] => none
      | _ :: t => seriesScan t

/-- `extract_series_identifier` from `database/threading.rs`: capture
group 1 of `\[PATCH\s+([^\]]*?)\s+\d+/\d+\]`, trimmed, joined with
`series_total` by a slash. -/
def extract_series_identifier (subject : String) (series_total : Int) :
    Option String :=
  (seriesScan subject.toList).map
    (fun g => (trimL g).asString ++ "/" ++ toString series_total)

/-- The projection of a `patches` row fetched by
`build_thread_relationships` (threading.rs lines 48–55); `sent_at` is the
timestamp, modelled as `Int` since the code only compares it.  The same
record stands for the derived `PatchThreadInfo` (whose extra fields
`is_reply` / `normalized_subject` are recomputed where the source
recomputes or reads them). -/
structure ThreadPatch where
  patch_id : Int
  message_id : String
  subject : String
  sent_at : Int
  in_reply_to : Option String
  thread_references : List String
  is_series : Bool
  series_number : Option Int
  series_total : Option Int
  deriving Repr, DecidableEq

/-- Step 2 of `build_thread_relationships`: the `message_id → patch_id`
map (later duplicates overwrite, as with `HashMap::insert`). -/
def msgIdToPatchId (rows : List ThreadPatch) : List (String × Int) :=
  rows.foldl (fun m r => hmInsert m r.message_id r.patch_id) []

/-- Step 3: the `normalized_subject → [patch_id]` map, pushed in row
order. -/
def subjectToPatches (rows : List ThreadPatch) : List (String × List Int) :=
  rows.foldl (fun m r => hmPush m (normalize_subject r.subject) r.patch_id) []

/-- The series key of a patch, as computed in steps 3.5 and strategy 4:
only for `is_series` rows with a `series_total`. -/
def seriesKeyOf (p : ThreadPatch) : Option String :=
  match p.series_total with
  | some tot =>
      if p.is_series then extract_series_identifier p.subject tot else none
  | none => none

/-- The `should_replace` comparison inside the `and_modify` closure of
step 3.5: lower `series_number` wins; if either number is missing, the
earlier `sent_at` wins. -/
def shouldReplace (existing p : ThreadPatch) : Bool :=
  match existing.series_number, p.series_number with
  | some e, some n => n < e
  | _, _ => p.sent_at < existing.sent_at

/-- `series_to_root.entry(k).and_modify(...).or_insert(patch_id)` for one
patch: the existing root is looked up in the full patch list by id, and
replaced when `shouldReplace` holds. -/
def seriesEntryStep (all : List ThreadPatch) (m : List (String × Int))
    (p : ThreadPatch) (k : String) : List (String × Int) :=
  match hmGet m k with
  | none => m ++ [(k, p.patch_id)]
  | some root_id =>
      match all.find? (fun q => q.patch_id == root_id) with
      | none => m
      | some existing =>
          if shouldReplace existing p then hmInsert m k p.patch_id else m

/-- One iteration of the step-3.5 loop: only `is_series` rows with a
series total and a matching series identifier touch the map. -/
def seriesFoldStep (all : List ThreadPatch) (m : List (String × Int))
    (p : ThreadPatch) : List (String × Int) :=
  match seriesKeyOf p with
  | some k => seriesEntryStep all m p k
  | none => m

/-- Step 3.5 of `build_thread_relationships`: the `series_key →
root_patch_id` map, folded over the rows in query order (`ORDER BY
sent_at ASC`). -/
def seriesToRoot (all : List ThreadPatch) : List (String × Int) :=
  all.foldl (seriesFoldStep all) []

/-- The minimality property the spec ascribes to a series root `p` for
key `k` within `scope`: its series number is minimal among the members of
the series, and among members with the same (minimal) number its
`sent_at` is earliest. -/
def SeriesMin (scope : List ThreadPatch) (p : ThreadPatch) (k : String) :
    Prop :=
  ∀ q ∈ scope, seriesKeyOf q = some k →
    ∃ np nq, p.series_number = some np ∧ q.series_number = some nq ∧
      np ≤ nq ∧ (np = nq → p.sent_at ≤ q.sent_at)

/-- Invariant of the step-3.5 fold over a processed prefix `scope`: a key
absent from the map has no contributor in `scope`, and a key mapped to
`r` has a contributor in `scope` with patch id `r` that is minimal in the
sense of `SeriesMin`. -/
def SeriesInv (scope : List ThreadPatch) (m : List (String × Int)) : Prop :=
  ∀ k : String,
    (hmGet m k = none → ∀ p ∈ scope, seriesKeyOf p ≠ some k) ∧
    (∀ r : Int, hmGet m k = some r → ∃ p ∈ scope, p.patch_id = r ∧
      seriesKeyOf p = some k ∧ SeriesMin scope p k)

/-- Strategy 1 (threading.rs lines 143–148): resolve `In-Reply-To`. -/
def strategyOneParent (msgMap : List (String × Int)) (r : ThreadPatch) :
    Option Int :=
  match r.in_reply_to with
  | some parent_msg_id => hmGet msgMap parent_msg_id
  | none => none

/-- Strategy 2 (lines 150–158): walk `references` backwards, first
resolvable id wins. -/
def strategyTwoParent (msgMap : List (String × Int)) (r : ThreadPatch) :
    Option Int :=
  if r.thread_references.isEmpty then none
  else r.thread_references.reverse.findSome? (fun ref_id => hmGet msgMap ref_id)

/-- Strategy 3 (lines 160–172): candidates with the same normalised
subject; minimum patch id other than self. -/
def strategyThreeParent (subjMap : List (String × List Int))
    (r : ThreadPatch) : Option Int :=
  match hmGet subjMap (normalize_subject r.subject) with
  | some candidates => (candidates.filter (fun pid => pid ≠ r.patch_id)).min?
  | none => none

/-- Strategy 4 (lines 174–190): series members link to the series root
when it is a different patch. -/
def strategyFourParent (all : List ThreadPatch) (s2r : List (String × Int))
    (r : ThreadPatch) : Option Int :=
  match all.find? (fun p => p.patch_id == r.patch_id) with
  | none => none
  | some info =>
      if info.is_series then
        match info.series_total with
        | some tot =>
            match extract_series_identifier r.subject tot with
            | some series_id =>
                match hmGet s2r series_id with
                | some root_id =>
                    if root_id ≠ r.patch_id then some root_id else none
                | none => none
            | none => none
        | none => none
      else none

/-- The parent chosen by step 4 of `build_thread_relationships` for one
row: `none` for rows with no threading hints (skipped by the loop) and
for rows on which all four strategies fail. -/
def computeParent (rows : List ThreadPatch) (r : ThreadPatch) : Option Int :=
  if r.in_reply_to = none ∧ r.thread_references = [] then none
  else
    match strategyOneParent (msgIdToPatchId rows) r with
    | some p => some p
    | none =>
        match strategyTwoParent (msgIdToPatchId rows) r with
        | some p => some p
        | none =>
            match strategyThreeParent (subjectToPatches rows) r with
            | some p => some p
            | none => strategyFourParent rows (seriesToRoot rows) r

/-- The ids recorded in `patch_has_parent` (step 4). -/
def patchesWithParent (rows : List ThreadPatch) : List Int :=
  rows.filterMap (fun r =>
    if (computeParent rows r).isSome then some r.patch_id else none)

/-- Step 5: the thread roots — rows whose id never entered
`patch_has_parent`. -/
def rootPatches (rows : List ThreadPatch) : List ThreadPatch :=
  rows.filter (fun p => !(patchesWithParent rows).contains p.patch_id)

/-- SPEC-SIDE definition (subject fallback), following the claim wording:
among the patches whose normalised subject equals this patch's normalised
subject, the minimum patch id distinct from this patch. -/
def specSubjectFallback (rows : List ThreadPatch) (r : ThreadPatch) :
    Option Int :=
  (((rows.filter (fun q =>
      normalize_subject q.subject == normalize_subject r.subject)).map
    (fun q => q.patch_id)).filter (fun pid => pid ≠ r.patch_id)).min?

/-- SPEC-SIDE definition (series fallback), following the claim wording:
if the patch is a series member whose series key maps to a different
patch, that patch. -/
def specSeriesFallback (rows : List ThreadPatch) (r : ThreadPatch) :
    Option Int :=
  match seriesKeyOf r with
  | some series_id =>
      match hmGet (seriesToRoot rows) series_id with
      | some root_id => if root_id ≠ r.patch_id then some root_id else none
      | none => none
  | none => none

/-- SPEC-SIDE definition of the four-tier parent discovery, written from
the claim's wording: in-reply-to resolution, then the backwards
references walk, then the normalised-subject minimum, then the series
fallback; patches without hints get no parent. -/
def specFourTierParent (rows : List ThreadPatch) (r : ThreadPatch) :
    Option Int :=
  if r.in_reply_to = none ∧ r.thread_references = [] then none
  else
    match r.in_reply_to.bind (fun m => hmGet (msgIdToPatchId rows) m) with
    | some p => some p
    | none =>
        match r.thread_references.reverse.findSome?
            (fun m => hmGet (msgIdToPatchId rows) m) with
        | some p => some p
        | none =>
            match specSubjectFallback rows r with
            | some p => some p
            | none => specSeriesFallback rows r

/-- One `(thread_id, patch_id, parent, depth, path)` tuple pushed into
`all_replies` by the `spawn_blocking` closure of
`build_all_threads_batched` (threading.rs lines 301–336). -/
structure ReplyTuple where
  thread_id : Int
  patch_id : Int
  parent_patch_id : Option Int
  depth_level : Nat
  thread_path : List Int
  deriving Repr, DecidableEq

/-- A `(patch_id, depth, path)` element of the BFS queue. -/
structure QueueEntry where
  pid : Int
  depth : Nat
  path : List Int
  deriving Repr, DecidableEq

/-- The BFS loop of `build_all_threads_batched` for one thread: pop the
front entry, emit one tuple per child (depth + 1, path extended by the
child) and enqueue the children.  `fuel` bounds the number of loop
iterations; the Rust loop runs until the queue empties, and every theorem
below holds for every fuel. -/
def bfsReplies (children : Int → List Int) (tid : Int) :
    Nat → List QueueEntry → List ReplyTuple
  | 0, _ => []
  | _ + 1, [] => []
  | fuel + 1, e :: queue =>
      let newEntries := (children e.pid).map
        (fun c => QueueEntry.mk c (e.depth + 1) (e.path ++ [c]))
      newEntries.map
        (fun ne => ReplyTuple.mk tid ne.pid (some e.pid) ne.depth ne.path)
        ++ bfsReplies children tid fuel (queue ++ newEntries)

/-- The full `all_replies` vector of `build_all_threads_batched`: for each
root, its own tuple (no parent, depth 0, path `[root]`) followed by the
BFS tuples of its thread. -/
def buildAllReplies (roots : List Int) (threadIdOf : Int → Int)
    (children : Int → List Int) (fuel : Nat) : List ReplyTuple :=
  roots.flatMap (fun r =>
    ReplyTuple.mk (threadIdOf r) r none 0 [r] ::
      bfsReplies children (threadIdOf r) fuel [QueueEntry.mk r 0 [r]])

/-- A row of `patch_replies` as bound by the batched INSERT (threading.rs
lines 344–369). -/
structure PatchReplyRow where
  thread_id : Int
  patch_id : Int
  parent_patch_id : Option Int
  depth_level : Nat
  position_in_thread : Int
  thread_path : List Int
  deriving Repr, DecidableEq

/-- Rust `slice::chunks(n)` with explicit fuel (the list length is always
enough fuel for `n ≥ 1`). -/
def chunksOfAux {α : Type} : Nat → Nat → List α → List (List α)
  | _, _, [] => []
  | 0, _, l => [l]
  | fuel + 1, n, x :: xs => (x :: xs).take n :: chunksOfAux fuel n ((x :: xs).drop n)

/-- Rust `slice::chunks(n)`. -/
def chunksOf {α : Type} (n : Nat) (l : List α) : List (List α) :=
  chunksOfAux l.length n l

/-- The `patch_replies` rows written by `build_all_threads_batched`:
`all_replies` is cut into chunks of `BATCH_SIZE = 5000` and every row is
bound with `position_in_thread = 0` (the literal `0i32` placeholder bound
at threading.rs line 364). -/
def insertedReplyRows (roots : List Int) (threadIdOf : Int → Int)
    (children : Int → List Int) (fuel : Nat) : List PatchReplyRow :=
  (chunksOf 5000 (buildAllReplies roots threadIdOf children fuel)).flatMap
    (fun batch => batch.map (fun t =>
      PatchReplyRow.mk t.thread_id t.patch_id t.parent_patch_id
        t.depth_level 0 t.thread_path))

/-! ## database/patches.rs -/

/-- `MergeInfo` (mail-parser side), carried opaquely by `PatchData`. -/
structure MergeInfo where
  repository : String
  branch : String
  applied_by : String
  commit_links : List String
  deriving Repr, DecidableEq

/-- `PatchData` from `database/models.rs`. -/
structure PatchData where
  author_id : Int
  email_id : Int
  message_id : String
  subject : String
  sent_at : Int
  commit_hash : String
  body_text : Option String
  is_series : Bool
  series_number : Option Int
  series_total : Option Int
  in_reply_to : Option String
  thread_references : List String
  is_reply : Bool
  is_merge_notification : Bool
  merge_info : Option MergeInfo
  deriving Repr, DecidableEq

/-- `MAX_PATCHES_PER_QUERY` from `insert_patches_with_email_ids`. -/
def MAX_PATCHES_PER_QUERY : Nat := 3500

/-- The number of `$n` placeholders the INSERT of
`execute_patch_batch_insert` generates for a chunk: 18 bound columns per
patch row. -/
def statementParamCount (batch : List PatchData) : Nat := 18 * batch.length

/-- The `patches` table after one `INSERT … ON CONFLICT (message_id) DO
NOTHING` statement: rows whose `message_id` is already present are
skipped, the rest append. The table is modelled by its `message_id`
column, the conflict key. -/
def pgPatchesAfterStatement (db : List String) (batch : List PatchData) :
    List String :=
  batch.foldl
    (fun d p => if d.contains p.message_id then d else d ++ [p.message_id]) db

/-- The number of rows such a statement actually inserts — the store's
`rows_affected`, i.e. the spec's "count of patches newly inserted". -/
def newlyInsertedCount (db : List String) (batch : List PatchData) : Nat :=
  (batch.foldl
    (fun (acc : List String × Nat) p =>
      if acc.1.contains p.message_id then acc
      else (acc.1 ++ [p.message_id], acc.2 + 1)) (db, 0)).2

/-- `execute_patch_batch_insert` from `database/patches.rs`: executes the
statement and returns `Ok(patch_batch.len() as u32)` — the chunk length,
not the number of rows the statement inserted. -/
def execute_patch_batch_insert (db : List String) (batch : List PatchData) :
    List String × Nat :=
  (pgPatchesAfterStatement db batch, batch.length)

/-- The chunked insert loop of `insert_patches_with_email_ids` (patches.rs
lines 345–363): early `Ok(0)` on empty input, else sum the per-chunk
counts over `chunks(MAX_PATCHES_PER_QUERY)`. -/
def insert_patches_chunked (db : List String) (patches_data : List PatchData) :
    List String × Nat :=
  if patches_data.isEmpty then (db, 0)
  else
    (chunksOf MAX_PATCHES_PER_QUERY patches_data).foldl
      (fun acc batch =>
        let r := execute_patch_batch_insert acc.1 batch
        (r.1, acc.2 + r.2)) (db, 0)

/-! ## database/population.rs -/

/-- `DatabasePopulationResult` from `database/models.rs`. -/
structure DatabasePopulationResult where
  success : Bool
  total_processed : Nat
  total_authors_inserted : Nat
  total_emails_inserted : Nat
  errors : List String
  deriving Repr, DecidableEq

/-- The store mutations the orchestrator can perform after schema
bootstrap; used to state frame conditions. -/
inductive StoreWrite where
  | insertAuthorRows (n : Nat)
  | insertAuthorEmailRows (n : Nat)
  | insertPatchRows (n : Nat)
  | refreshAuthorPatchCounts
  deriving Repr, DecidableEq

/-- The dedup filter of `process_commit_batches` (population.rs lines
93–96): keep the commits whose hash is not already in the store. -/
def dedupNewCommits (commits existing : List String) : List String :=
  commits.filter (fun c => !existing.contains c)

/-- The dedup/early-return prefix of `process_commit_batches`
(population.rs lines 83–114), given the set of commit hashes already in
the store: when nothing survives the filter it returns `some` result —
`success = true`, `total_processed = commits.len()`, zero inserted
counts, empty error list — having performed no store write; `none` means
control continues into the parse/insert pipeline. -/
def processCommitBatchesEarly (commits existing : List String) :
    Option (DatabasePopulationResult × List StoreWrite) :=
  let new_commits := dedupNewCommits commits existing
  if new_commits.isEmpty then
    some ({ success := true,
            total_processed := commits.length,
            total_authors_inserted := 0,
            total_emails_inserted := 0,
            errors := [] }, [])
  else none

/-! ## Projections and checkers used in claim statements -/

/-- The `re:`-prefix test the source applies to a subject before setting
`is_reply`: trim, lowercase, `starts_with("re:")` (mail-parser.rs line
286, threading.rs line 74). -/
def subjectReFlagOf (s : String) : Bool :=
  isPrefixL "re:".toList (toLowerL (trimL s.toList))

/-- The `is_reply` field of a parse result, when it succeeded. -/
def emailIsReply : Except ParseError EmailInfo → Option Bool
  | .ok r => some r.is_reply
  | .error _ => none

/-- The `message_id` field of a parse result, when it succeeded. -/
def emailMessageId : Except ParseError EmailInfo → Option String
  | .ok r => some r.message_id
  | .error _ => none

/-- Boolean check: every character is fixed by lowercasing. -/
def allLowerB (l : List Char) : Bool := l.all (fun c => c.toLower == c)

/-- Boolean check: no two adjacent whitespace characters. -/
def noDoubleWsB : List Char → Bool
  | [] => true
  | [_] => true
  | c :: d :: rest => !(isWs c && isWs d) && noDoubleWsB (d :: rest)

/-! ## Concrete inputs used by witnesses and counterexamples -/

/-- A decoder standing in for the external crates in concrete runs:
always fails, so the raw body is kept. -/
def noDecode : String → Option String := fun _ => none

/-- A simple `PatchData` value with a given message id. -/
def mkPatch (m : String) : PatchData :=
  { author_id := 7, email_id := 8, message_id := m, subject := "s",
    sent_at := 0, commit_hash := "c", body_text := none, is_series := false,
    series_number := none, series_total := none, in_reply_to := none,
    thread_references := [], is_reply := false,
    is_merge_notification := false, merge_info := none }

/-- Children map of a tiny thread: patch 1 has children 2 and 3, patch 2
has child 4. -/
def exChildren (p : Int) : List Int :=
  if p = 1 then [2, 3] else if p = 2 then [4] else []

/-- Thread-id assignment of the tiny thread. -/
def exThreadIdOf : Int → Int := fun _ => 10

/-! ## General lemmas -/

theorem dropWhile_length_le {α : Type} (p : α → Bool) (l : List α) :
    (l.dropWhile p).length ≤ l.length :=
  List.IsSuffix.length_le (List.dropWhile_suffix p)

theorem isPrefixL_length_le {p l : List Char} (h : isPrefixL p l = true) :
    p.length ≤ l.length := by
  induction p generalizing l with
  | nil => simp
  | cons a as ih =>
      cases l with
      | nil => simp [isPrefixL] at h
      | cons b bs =>
          simp only [isPrefixL, Bool.and_eq_true] at h
          have := ih h.2
          simp
          omega

theorem replyMarkHit_spec {l p : List Char} (h : replyMarkHit l = some p) :
    isPrefixL p l = true ∧ 3 ≤ p.length := by
  unfold replyMarkHit at h
  repeat' split at h
  all_goals simp_all
  all_goals subst h
  all_goals simp_all

theorem chunksOfAux_mem_length_le {α : Type} {n : Nat} (hn : 0 < n) :
    ∀ (fuel : Nat) (l : List α), l.length ≤ fuel →
      ∀ c ∈ chunksOfAux fuel n l, c.length ≤ n := by
  intro fuel
  induction fuel with
  | zero =>
      intro l hl c hc
      have : l = [] := List.length_eq_zero.mp (Nat.le_zero.mp hl)
      subst this
      simp [chunksOfAux] at hc
  | succ fuel ih =>
      intro l hl c hc
      cases l with
      | nil => simp [chunksOfAux] at hc
      | cons x xs =>
          simp only [chunksOfAux, List.mem_cons] at hc
          rcases hc with hc | hc
          · subst hc
            have := List.length_take_le n (x :: xs)
            exact this
          · apply ih ((x :: xs).drop n) _ c hc
            simp only [List.length_drop, List.length_cons]
            simp only [List.length_cons] at hl
            omega

theorem chunksOf_mem_length_le {α : Type} {n : Nat} (hn : 0 < n)
    (l : List α) {c : List α} (hc : c ∈ chunksOf n l) : c.length ≤ n :=
  chunksOfAux_mem_length_le hn l.length l (Nat.le_refl _) c hc

theorem chunksOfAux_flatten {α : Type} {n : Nat} (hn : 0 < n) :
    ∀ (fuel : Nat) (l : List α), l.length ≤ fuel →
      (chunksOfAux fuel n l).flatten = l := by
  intro fuel
  induction fuel with
  | zero =>
      intro l hl
      have : l = [] := List.length_eq_zero.mp (Nat.le_zero.mp hl)
      subst this
      simp [chunksOfAux]
  | succ fuel ih =>
      intro l hl
      cases l with
      | nil => simp [chunksOfAux]
      | cons x xs =>
          simp only [chunksOfAux, List.flatten_cons]
          rw [ih ((x :: xs).drop n) (by
            simp only [List.length_drop, List.length_cons]
            simp only [List.length_cons] at hl
            omega)]
          exact List.take_append_drop n (x :: xs)

theorem chunksOf_flatten {α : Type} {n : Nat} (hn : 0 < n) (l : List α) :
    (chunksOf n l).flatten = l :=
  chunksOfAux_flatten hn l.length l (Nat.le_refl _)

theorem chunksOf_of_length_le {α : Type} {n : Nat} {l : List α}
    (h : l.length ≤ n) (hne : l ≠ []) : chunksOf n l = [l] := by
  cases l with
  | nil => exact absurd rfl hne
  | cons x xs =>
      simp only [chunksOf, List.length_cons, chunksOfAux]
      rw [List.take_of_length_le (by simpa using h),
        List.drop_eq_nil_of_le (by simpa using h)]
      simp [chunksOfAux]

theorem insertChunksLoop_count (chunks : List (List PatchData)) :
    ∀ (db : List String) (c0 : Nat),
      (chunks.foldl (fun acc batch =>
        let r := execute_patch_batch_insert acc.1 batch
        (r.1, acc.2 + r.2)) (db, c0)).2 = c0 + (chunks.map List.length).sum := by
  induction chunks with
  | nil => intro db c0; simp
  | cons b bs ih =>
      intro db c0
      simp only [List.foldl_cons, List.map_cons, List.sum_cons]
      rw [ih]
      simp [execute_patch_batch_insert]
      omega

/-- C6, amended half: every statement the patch writer emits binds
`18 × chunk length ≤ 18 × 3500 = 63_000` parameters (still below the
store's ≈65_535 ceiling, but NOT below 60_000 — see the
counterexample). -/
theorem c6_statement_params_at_most_63000 (patches_data : List PatchData)
    (c : List PatchData) (hc : c ∈ chunksOf MAX_PATCHES_PER_QUERY patches_data) :
    statementParamCount c ≤ 63000 := by
  have hlen : c.length ≤ MAX_PATCHES_PER_QUERY :=
    chunksOf_mem_length_le (by decide) patches_data hc
  simp only [statementParamCount, MAX_PATCHES_PER_QUERY] at hlen ⊢
  omega

/-- Witness for C6's amended theorem at a concrete two-row batch. -/
theorem c6_statement_params_witness :
    statementParamCount [mkPatch "m1", mkPatch "m2"] ≤ 63000 := by
  apply c6_statement_params_at_most_63000 [mkPatch "m1", mkPatch "m2"]
  rw [chunksOf_of_length_le (by decide) (by decide)]
  simp

/-- C6, counterexample: the claim says `chunk rows × 18 ≤ 60_000` for
every emitted statement, but `MAX_PATCHES_PER_QUERY = 3500`, so a full
chunk binds `18 × 3500 = 63_000 > 60_000` parameters. -/
theorem c6_counterexample :
    ∃ c ∈ chunksOf MAX_PATCHES_PER_QUERY (List.replicate 3500 (mkPatch "m")),
      ¬ statementParamCount c ≤ 60000 := by
  have hne : List.replicate 3500 (mkPatch "m") ≠ [] := by
    intro h
    have := congrArg List.length h
    rw [List.length_replicate] at this
    simp at this
  refine ⟨List.replicate 3500 (mkPatch "m"), ?_, ?_⟩
  · rw [chunksOf_of_length_le ?_ hne]
    · exact List.mem_singleton_self _
    · rw [List.length_replicate]
      decide
  · have hcount : statementParamCount (List.replicate 3500 (mkPatch "m")) = 63000 := by
      unfold statementParamCount
      rw [List.length_replicate]
    rw [hcount]
    decide

/-- C7, amended: the count the patch writer returns is the TOTAL number
of rows submitted (the sum of the chunk lengths), independent of how many
rows the `ON CONFLICT (message_id) DO NOTHING` statements actually
inserted into the store. -/
theorem c7_returned_count_is_input_length (db : List String)
    (patches_data : List PatchData) :
    (insert_patches_chunked db patches_data).2 = patches_data.length := by
  unfold insert_patches_chunked
  by_cases h : patches_data.isEmpty
  · rw [if_pos h]
    simp [List.isEmpty_iff.mp h]
  · rw [if_neg h]
    rw [insertChunksLoop_count]
    have hflat := chunksOf_flatten (n := MAX_PATCHES_PER_QUERY) (by decide)
      patches_data
    calc 0 + ((chunksOf MAX_PATCHES_PER_QUERY patches_data).map List.length).sum
        = ((chunksOf MAX_PATCHES_PER_QUERY patches_data).flatten).length := by
          rw [List.length_flatten]
          omega
      _ = patches_data.length := by rw [hflat]

/-- C7, counterexample: submitting one patch whose `message_id` is
already present returns 1 (the batch length), while the store inserts 0
new rows — the claim says such a call returns 0. -/
theorem c7_counterexample :
    (insert_patches_chunked ["m1"] [mkPatch "m1"]).2 = 1 ∧
      newlyInsertedCount ["m1"] [mkPatch "m1"] = 0 ∧ (1 : Nat) ≠ 0 := by
  refine ⟨by rfl, by rfl, by decide⟩

theorem insertedReplyRows_eq_map (roots : List Int) (tidOf : Int → Int)
    (children : Int → List Int) (fuel : Nat) :
    insertedReplyRows roots tidOf children fuel =
      (buildAllReplies roots tidOf children fuel).map
        (fun t => PatchReplyRow.mk t.thread_id t.patch_id t.parent_patch_id
          t.depth_level 0 t.thread_path) := by
  unfold insertedReplyRows
  rw [List.flatMap_def, ← List.map_flatten, chunksOf_flatten (by decide)]

/-- C5, amended half: every `patch_replies` row written by the batched
rebuild carries `position_in_thread = 0` — the placeholder literal bound
for every row — not a pre-order counter. -/
theorem c5_position_always_zero (roots : List Int) (tidOf : Int → Int)
    (children : Int → List Int) (fuel : Nat) (row : PatchReplyRow)
    (hrow : row ∈ insertedReplyRows roots tidOf children fuel) :
    row.position_in_thread = 0 := by
  rw [insertedReplyRows_eq_map] at hrow
  obtain ⟨t, -, rfl⟩ := List.mem_map.mp hrow
  rfl

/-- Witness for C5's amended theorem on a concrete two-level thread. -/
theorem c5_position_witness :
    (PatchReplyRow.mk 10 4 (some 2) 2 0 [1, 2, 4]).position_in_thread = 0 :=
  c5_position_always_zero [1] exThreadIdOf exChildren 9 _ (by decide)

/-- C5, counterexample: in the thread rooted at patch 1 with children 2,3
and grandchild 4, every inserted row has `position_in_thread = 0`.  Were
`position_in_thread` a pre-order counter starting at 0 at the root, every
non-root member would get a position of at least 1; here all three
non-root members get 0. -/
theorem c5_counterexample :
    (insertedReplyRows [1] exThreadIdOf exChildren 9).map
      (fun r => (r.parent_patch_id, r.position_in_thread)) =
      [(none, 0), (some 1, 0), (some 1, 0), (some 2, 0)] ∧
    ¬ (∀ row ∈ insertedReplyRows [1] exThreadIdOf exChildren 9,
        row.parent_patch_id ≠ none → 1 ≤ row.position_in_thread) := by
  exact ⟨by rfl, by decide⟩

theorem bfsReplies_invariants (children : Int → List Int) (tid : Int) :
    ∀ (fuel : Nat) (queue : List QueueEntry) (L : List ReplyTuple),
      (∀ row ∈ bfsReplies children tid fuel queue, row ∈ L) →
      (∀ e ∈ queue, e.path.length = e.depth + 1 ∧
        ∃ prow ∈ L, prow.patch_id = e.pid ∧ prow.depth_level = e.depth ∧
          prow.thread_path = e.path) →
      ∀ row ∈ bfsReplies children tid fuel queue,
        (∃ p, row.parent_patch_id = some p ∧
          ∃ prow ∈ L, prow.patch_id = p ∧
            row.depth_level = prow.depth_level + 1 ∧
            row.thread_path = prow.thread_path ++ [row.patch_id]) ∧
        row.thread_path.length = row.depth_level + 1 := by
  intro fuel
  induction fuel with
  | zero =>
      intro queue L _ _ row hrow
      simp [bfsReplies] at hrow
  | succ fuel ih =>
      intro queue L hsub hq row hrow
      cases queue with
      | nil => simp [bfsReplies] at hrow
      | cons e qrest =>
          obtain ⟨hlen, prow, hprowL, hprowPid, hprowDepth, hprowPath⟩ :=
            hq e (List.mem_cons_self e qrest)
          simp only [bfsReplies, List.mem_append] at hrow
          rcases hrow with hemit | hrec
          · obtain ⟨ne2, hne2, rfl⟩ := List.mem_map.mp hemit
            obtain ⟨c, hc, rfl⟩ := List.mem_map.mp hne2
            constructor
            · refine ⟨e.pid, rfl, prow, hprowL, hprowPid, ?_, ?_⟩
              · simp [hprowDepth]
              · simp [hprowPath]
            · simp [hlen]
          · apply ih (qrest ++ ((children e.pid).map
              (fun c => QueueEntry.mk c (e.depth + 1) (e.path ++ [c])))) L
            · intro row2 hrow2
              apply hsub
              simp only [bfsReplies, List.mem_append]
              exact Or.inr hrow2
            · intro e2 he2
              rcases List.mem_append.mp he2 with h2 | h2
              · exact hq e2 (List.mem_cons_of_mem e h2)
              · obtain ⟨c, hc, rfl⟩ := List.mem_map.mp h2
                constructor
                · simp [hlen]
                · refine ⟨ReplyTuple.mk tid c (some e.pid) (e.depth + 1)
                    (e.path ++ [c]), ?_, rfl, rfl, rfl⟩
                  apply hsub
                  simp only [bfsReplies, List.mem_append]
                  exact Or.inl (List.mem_map.mpr
                    ⟨QueueEntry.mk c (e.depth + 1) (e.path ++ [c]),
                      List.mem_map.mpr ⟨c, hc, rfl⟩, rfl⟩)
            · exact hrec

theorem mem_buildAllReplies_of_bfs {roots : List Int} {tidOf : Int → Int}
    {children : Int → List Int} {fuel : Nat} {r : Int} (hr : r ∈ roots)
    {row : ReplyTuple}
    (hrow : row ∈ bfsReplies children (tidOf r) fuel [QueueEntry.mk r 0 [r]]) :
    row ∈ buildAllReplies roots tidOf children fuel := by
  unfold buildAllReplies
  exact List.mem_flatMap.mpr ⟨r, hr, List.mem_cons_of_mem _ hrow⟩

/-- C4: the depth/path invariants of every `patch_replies` row written by
the batched Thread Builder. Every row with a parent has the depth of some
row carrying that parent id plus one, and that row's path extended by its
own patch id; every parentless (root) row has depth 0 and path equal to
its own singleton; and the path length always equals depth + 1. -/
theorem c4_thread_member_invariants (roots : List Int) (tidOf : Int → Int)
    (children : Int → List Int) (fuel : Nat) (row : PatchReplyRow)
    (hrow : row ∈ insertedReplyRows roots tidOf children fuel) :
    (row.parent_patch_id = none →
      row.depth_level = 0 ∧ row.thread_path = [row.patch_id]) ∧
    (∀ p, row.parent_patch_id = some p →
      ∃ prow ∈ insertedReplyRows roots tidOf children fuel,
        prow.patch_id = p ∧ row.depth_level = prow.depth_level + 1 ∧
        row.thread_path = prow.thread_path ++ [row.patch_id]) ∧
    row.thread_path.length = row.depth_level + 1 := by
  rw [insertedReplyRows_eq_map] at hrow ⊢
  obtain ⟨t, ht, rfl⟩ := List.mem_map.mp hrow
  obtain ⟨r, hr, hmem⟩ := List.mem_flatMap.mp ht
  rcases List.mem_cons.mp hmem with hroot | hbfs
  · subst hroot
    refine ⟨fun _ => ⟨rfl, rfl⟩, fun p hp => absurd hp (by simp), by simp⟩
  · have hinv := bfsReplies_invariants children (tidOf r) fuel
      [QueueEntry.mk r 0 [r]] (buildAllReplies roots tidOf children fuel)
      (fun row2 hrow2 => mem_buildAllReplies_of_bfs hr hrow2)
      (by
        intro e he
        rcases List.mem_cons.mp he with rfl | h
        · refine ⟨by simp, ReplyTuple.mk (tidOf r) r none 0 [r], ?_, rfl, rfl, rfl⟩
          unfold buildAllReplies
          exact List.mem_flatMap.mpr ⟨r, hr, List.mem_cons_self _ _⟩
        · simp at h)
      t hbfs
    obtain ⟨⟨p, hp, prow, hprowL, hprowPid, hprowDepth, hprowPath⟩, hlen⟩ := hinv
    refine ⟨?_, ?_, hlen⟩
    · intro hnone
      rw [hp] at hnone
      exact absurd hnone (by simp)
    · intro p2 hp2
      have : p2 = p := by
        rw [hp] at hp2
        exact (Option.some_inj.mp hp2).symm
      subst this
      exact ⟨PatchReplyRow.mk prow.thread_id prow.patch_id prow.parent_patch_id
          prow.depth_level 0 prow.thread_path,
        List.mem_map.mpr ⟨prow, hprowL, rfl⟩, hprowPid, hprowDepth, hprowPath⟩

/-- Witness for C4 at a concrete thread: the grandchild row
`(patch 4, parent 2, depth 2, path [1,2,4])` has a parent row for patch 2
with depth 1 and path `[1,2]`. -/
theorem c4_witness :
    ∃ prow ∈ insertedReplyRows [1] exThreadIdOf exChildren 9,
      prow.patch_id = 2 ∧ (2 : Nat) = prow.depth_level + 1 ∧
        ([1, 2, 4] : List Int) = prow.thread_path ++ [4] :=
  (c4_thread_member_invariants [1] exThreadIdOf exChildren 9
    (PatchReplyRow.mk 10 4 (some 2) 2 0 [1, 2, 4]) (by decide)).2.1 2 rfl

/-- C8, amended: when every enumerated commit is already present, the
orchestrator returns early with `success = true`, an empty error list,
zero inserted-author and inserted-patch counts — but `total_processed`
equal to the number of enumerated commits, not zero — and performs no
store write. -/
theorem c8_all_duplicates_early_return (commits existing : List String)
    (h : ∀ c ∈ commits, existing.contains c = true) :
    processCommitBatchesEarly commits existing =
      some ({ success := true, total_processed := commits.length,
              total_authors_inserted := 0, total_emails_inserted := 0,
              errors := [] }, []) := by
  have hfil : commits.filter (fun c => !existing.contains c) = [] := by
    rw [List.filter_eq_nil_iff]
    intro a ha
    have hc := List.mem_of_elem_eq_true (h a ha)
    simp [hc]
  unfold processCommitBatchesEarly dedupNewCommits
  rw [hfil]
  rfl

/-- Witness for C8's amended theorem on a concrete all-duplicate input. -/
theorem c8_witness :
    processCommitBatchesEarly ["a", "b"] ["b", "a", "c"] =
      some ({ success := true, total_processed := 2,
              total_authors_inserted := 0, total_emails_inserted := 0,
              errors := [] }, []) :=
  c8_all_duplicates_early_return ["a", "b"] ["b", "a", "c"] (by decide)

/-- C8, counterexample: on the all-duplicate input `["a"]` with `"a"`
already stored, the early result carries `total_processed = 1`, so the
result does not carry "zero counts" as the claim states (only the two
inserted counts are zero). -/
theorem c8_counterexample :
    ∃ res writes, processCommitBatchesEarly ["a"] ["a"] = some (res, writes) ∧
      res.success = true ∧ res.errors = [] ∧ res.total_authors_inserted = 0 ∧
      res.total_emails_inserted = 0 ∧ writes = [] ∧
      res.total_processed = 1 ∧ ¬ res.total_processed = 0 :=
  ⟨_, _, rfl, rfl, rfl, rfl, rfl, rfl, rfl, by decide⟩

/-- C1, amended: the stored `is_reply` flag equals the `re:`-prefix test
applied to the email HEADER subject (empty when the header is absent) —
not to the stored subject, which comes from commit metadata — and is in
particular never influenced by the `In-Reply-To` header or by the
metadata. -/
theorem c1_is_reply_from_header_subject (qpDecode b64Decode : String → Option String)
    (commit_hash email_content : String) (metadata : CommitMetadata) :
    emailIsReply
      (parse_email_from_content qpDecode b64Decode commit_hash email_content
        metadata) =
      some (subjectReFlagOf
        ((hmGet (parse_email_headers email_content) "subject").getD "")) :=
  rfl

/-- C1, counterexample: an email whose header subject is `Re: hi` but
whose commit-metadata (stored) subject is `hi` gets `is_reply = true`
although its stored subject does not begin with `re:` after trimming and
lowercasing — so `is_reply` is NOT a function of the stored subject. -/
theorem c1_counterexample :
    (parse_email_from_content noDecode noDecode "c1" "subject: Re: hi\n\nbody"
        (CommitMetadata.mk "c1" "Jane Roe" "j@x.org" "hi")).toOption.map
      (fun rec => (rec.is_reply, rec.subject, subjectReFlagOf rec.subject)) =
      some (true, "hi", false) :=
  rfl

/-- C9: `parse_email_from_content` always returns `Ok` — there is no
input on which it constructs a `ParseError` — and when the email content
carries no `message-id` header the message id is synthesised as
`commit-<commit_id>` (run through the same `sanitize_message_id` every
message id receives, which is the identity on commit hashes). -/
theorem c9_parse_email_total (qpDecode b64Decode : String → Option String)
    (commit_hash email_content : String) (metadata : CommitMetadata) :
    (parse_email_from_content qpDecode b64Decode commit_hash email_content
        metadata).isOk = true ∧
    (hmGet (parse_email_headers email_content) "message-id" = none →
      emailMessageId
        (parse_email_from_content qpDecode b64Decode commit_hash email_content
          metadata) =
        some (sanitize_message_id ("commit-" ++ commit_hash))) := by
  constructor
  · rfl
  · intro h
    simp [parse_email_from_content, emailMessageId, h]

/-- Witness for C9 on an email with no `message-id` header. -/
theorem c9_witness :
    (parse_email_from_content noDecode noDecode "deadbeef01" "subject: x\n\nb"
        (CommitMetadata.mk "deadbeef01" "Jane Roe" "j@x.org" "x")).isOk = true ∧
    emailMessageId
      (parse_email_from_content noDecode noDecode "deadbeef01" "subject: x\n\nb"
        (CommitMetadata.mk "deadbeef01" "Jane Roe" "j@x.org" "x")) =
      some "commit-deadbeef01" := by
  have h := c9_parse_email_total noDecode noDecode "deadbeef01" "subject: x\n\nb"
    (CommitMetadata.mk "deadbeef01" "Jane Roe" "j@x.org" "x")
  refine ⟨h.1, ?_⟩
  rw [h.2 (by rfl)]
  rfl

theorem hmGet_cons_ne {β : Type} (a : String × β) (m : List (String × β))
    (k : String) (h : (a.1 == k) = false) : hmGet (a :: m) k = hmGet m k := by
  simp [hmGet, List.find?, h]

theorem hmGet_cons_eq {β : Type} (a : String × β) (m : List (String × β))
    (k : String) (h : (a.1 == k) = true) : hmGet (a :: m) k = some a.2 := by
  simp [hmGet, List.find?, h]


theorem beq_false_symm {a b : String} (h : (a == b) = false) :
    (b == a) = false := by
  simp only [beq_eq_false_iff_ne] at h ⊢
  exact fun e => h e.symm

theorem hmGet_append_one_ne {β : Type} (m : List (String × β)) (k k2 : String)
    (v : β) (h : (k == k2) = false) :
    hmGet (m ++ [(k, v)]) k2 = hmGet m k2 := by
  induction m with
  | nil =>
      simp only [List.nil_append]
      rw [hmGet_cons_ne _ _ _ h]
  | cons a m ih =>
      cases ha : (a.1 == k2)
      · rw [List.cons_append, hmGet_cons_ne _ _ _ ha, hmGet_cons_ne _ _ _ ha, ih]
      · rw [List.cons_append, hmGet_cons_eq _ _ _ ha, hmGet_cons_eq _ _ _ ha]

theorem hmGet_mapUpd_ne (m : List (String × List Int)) (k k2 : String)
    (v : Int) (h : (k2 == k) = false) :
    hmGet (m.map (fun p => if p.1 == k then (k, p.2 ++ [v]) else p)) k2 =
      hmGet m k2 := by
  induction m with
  | nil => rfl
  | cons b mrest ih =>
      cases hb : (b.1 == k)
      · simp only [List.map_cons, hb, Bool.false_eq_true, if_false]
        cases hb2 : (b.1 == k2)
        · rw [hmGet_cons_ne _ _ _ hb2, hmGet_cons_ne _ _ _ hb2, ih]
        · rw [hmGet_cons_eq _ _ _ hb2, hmGet_cons_eq _ _ _ hb2]
      · simp only [List.map_cons, hb, if_true]
        have hbk : b.1 = k := by simpa using hb
        have hb2 : (b.1 == k2) = false := by
          rw [hbk]
          exact beq_false_symm h
        rw [hmGet_cons_ne _ _ _ (beq_false_symm h),
          hmGet_cons_ne _ _ _ hb2, ih]

theorem hmPush_cons_ne (a : String × List Int) (m : List (String × List Int))
    (k : String) (v : Int) (h : (a.1 == k) = false) :
    hmPush (a :: m) k v = a :: hmPush m k v := by
  cases ham : m.any (fun p => p.1 == k) with
  | false =>
      simp only [hmPush, List.any_cons, h, Bool.false_or, ham,
        Bool.false_eq_true, if_false, List.cons_append]
  | true =>
      simp only [hmPush, List.any_cons, h, Bool.false_or, ham, if_true,
        List.map_cons, Bool.false_eq_true, if_false]

theorem hmGet_hmPush_same (m : List (String × List Int)) (k : String) (v : Int) :
    hmGet (hmPush m k v) k = some ((hmGet m k).getD [] ++ [v]) := by
  induction m with
  | nil => simp [hmPush, hmGet]
  | cons a m ih =>
      cases ha : (a.1 == k)
      · rw [hmPush_cons_ne a m k v ha, hmGet_cons_ne _ _ _ ha,
          hmGet_cons_ne _ _ _ ha, ih]
      · have hany : ((a :: m).any (fun p => p.1 == k)) = true := by
          simp only [List.any_cons, ha, Bool.true_or]
        unfold hmPush
        rw [if_pos hany]
        simp only [List.map_cons, ha, if_true]
        rw [hmGet_cons_eq _ _ _ (by simp), hmGet_cons_eq _ _ _ ha]
        rfl

theorem hmGet_hmPush_ne (m : List (String × List Int)) (k k2 : String)
    (v : Int) (h : (k2 == k) = false) :
    hmGet (hmPush m k v) k2 = hmGet m k2 := by
  unfold hmPush
  cases ham : m.any (fun p => p.1 == k) with
  | false =>
      simp only [Bool.false_eq_true, if_false]
      exact hmGet_append_one_ne m k k2 [v] (beq_false_symm h)
  | true =>
      simp only [if_true]
      exact hmGet_mapUpd_ne m k k2 v h

theorem subjFold_get (rows : List ThreadPatch) :
    ∀ (m : List (String × List Int)) (k : String),
      hmGet (rows.foldl
        (fun m2 r => hmPush m2 (normalize_subject r.subject) r.patch_id) m) k =
        match hmGet m k with
        | some l0 => some (l0 ++
            ((rows.filter (fun q => normalize_subject q.subject == k)).map
              (fun q => q.patch_id)))
        | none =>
            if (rows.filter (fun q => normalize_subject q.subject == k)) = []
            then none
            else some ((rows.filter
              (fun q => normalize_subject q.subject == k)).map
                (fun q => q.patch_id)) := by
  induction rows with
  | nil =>
      intro m k
      cases h : hmGet m k <;> simp [h]
  | cons r rest ih =>
      intro m k
      simp only [List.foldl_cons, List.filter_cons]
      cases hkr : (normalize_subject r.subject == k)
      · simp only [Bool.false_eq_true, if_false]
        rw [ih (hmPush m (normalize_subject r.subject) r.patch_id) k,
          hmGet_hmPush_ne _ _ _ _ (beq_false_symm hkr)]
      · have hkey : normalize_subject r.subject = k := by simpa using hkr
        simp only [if_true]
        rw [ih (hmPush m (normalize_subject r.subject) r.patch_id) k, hkey,
          hmGet_hmPush_same m k r.patch_id]
        cases h0 : hmGet m k with
        | some l0 => simp
        | none => simp

theorem strategyThree_eq_spec (rows : List ThreadPatch) (r : ThreadPatch)
    (hr : r ∈ rows) :
    strategyThreeParent (subjectToPatches rows) r = specSubjectFallback rows r := by
  have hne : (rows.filter
      (fun q => normalize_subject q.subject == normalize_subject r.subject)) ≠ [] := by
    intro hnil
    have hmem : r ∈ rows.filter
        (fun q => normalize_subject q.subject == normalize_subject r.subject) :=
      List.mem_filter.mpr ⟨hr, by simp⟩
    rw [hnil] at hmem
    simp at hmem
  unfold strategyThreeParent specSubjectFallback subjectToPatches
  rw [subjFold_get rows [] (normalize_subject r.subject)]
  simp only [hmGet, List.find?_nil, Option.map_none]
  rw [if_neg hne]
  rfl

theorem find?_patch_id_self {rows : List ThreadPatch}
    (hid : (rows.map (fun p => p.patch_id)).Nodup) {r : ThreadPatch}
    (hr : r ∈ rows) :
    rows.find? (fun p => p.patch_id == r.patch_id) = some r := by
  induction rows with
  | nil => simp at hr
  | cons a rest ih =>
      rw [List.map_cons, List.nodup_cons] at hid
      cases ha : (a.patch_id == r.patch_id)
      · have hrr : r ∈ rest := by
          rcases List.mem_cons.mp hr with rfl | h
          · simp at ha
          · exact h
        rw [List.find?_cons, ha, ih hid.2 hrr]
      · rw [List.find?_cons, ha]
        have heq : a.patch_id = r.patch_id := by simpa using ha
        rcases List.mem_cons.mp hr with rfl | h
        · rfl
        · exact absurd (by rw [heq]; exact List.mem_map_of_mem _ h) hid.1

theorem strategyFour_eq_spec (rows : List ThreadPatch)
    (hid : (rows.map (fun p => p.patch_id)).Nodup) (r : ThreadPatch)
    (hr : r ∈ rows) :
    strategyFourParent rows (seriesToRoot rows) r = specSeriesFallback rows r := by
  unfold strategyFourParent specSeriesFallback seriesKeyOf
  rw [find?_patch_id_self hid hr]
  cases htot : r.series_total with
  | none => cases hser : r.is_series <;> simp [hser, htot]
  | some tot => cases hser : r.is_series <;> simp [hser, htot]

theorem computeParent_eq_spec (rows : List ThreadPatch)
    (hid : (rows.map (fun p => p.patch_id)).Nodup) (r : ThreadPatch)
    (hr : r ∈ rows) :
    computeParent rows r = specFourTierParent rows r := by
  unfold computeParent specFourTierParent
  by_cases hgate : (r.in_reply_to = none ∧ r.thread_references = [])
  · rw [if_pos hgate, if_pos hgate]
  · rw [if_neg hgate, if_neg hgate]
    have h1 : strategyOneParent (msgIdToPatchId rows) r =
        r.in_reply_to.bind (fun m => hmGet (msgIdToPatchId rows) m) := by
      unfold strategyOneParent
      cases r.in_reply_to <;> rfl
    have h2 : strategyTwoParent (msgIdToPatchId rows) r =
        r.thread_references.reverse.findSome?
          (fun m => hmGet (msgIdToPatchId rows) m) := by
      unfold strategyTwoParent
      cases href : r.thread_references with
      | nil => simp
      | cons a t => simp
    rw [h1, h2, strategyThree_eq_spec rows r hr,
      strategyFour_eq_spec rows hid r hr]

theorem contains_false_iff (l : List Int) (x : Int) :
    l.contains x = false ↔ x ∉ l := by
  rw [Bool.eq_false_iff]
  exact not_congr List.elem_iff

theorem mem_rootPatches_iff (rows : List ThreadPatch)
    (hid : (rows.map (fun p => p.patch_id)).Nodup) (r : ThreadPatch)
    (hr : r ∈ rows) :
    r ∈ rootPatches rows ↔ computeParent rows r = none := by
  unfold rootPatches patchesWithParent
  rw [List.mem_filter]
  constructor
  · rintro ⟨-, hc⟩
    by_contra hne
    have hsome : (computeParent rows r).isSome :=
      Option.ne_none_iff_isSome.mp hne
    have hmem : r.patch_id ∈ rows.filterMap
        (fun q => if (computeParent rows q).isSome then some q.patch_id
          else none) :=
      List.mem_filterMap.mpr ⟨r, hr, by simp [hsome]⟩
    rw [Bool.not_eq_true'] at hc
    exact (contains_false_iff _ _).mp hc hmem
  · intro hnone
    refine ⟨hr, ?_⟩
    rw [Bool.not_eq_true', contains_false_iff]
    intro hmem
    obtain ⟨q, hq, hqsome⟩ := List.mem_filterMap.mp hmem
    by_cases hqs : (computeParent rows q).isSome
    · rw [if_pos hqs] at hqsome
      have hqr : q = r :=
        List.inj_on_of_nodup_map hid hq hr (Option.some_inj.mp hqsome)
      rw [hqr] at hqs
      rw [hnone] at hqs
      simp at hqs
    · rw [if_neg hqs] at hqsome
      simp at hqsome

/-- C2: for every patch row (in a table whose patch ids are distinct, as
the primary key guarantees), the parent chosen by
`build_thread_relationships` is exactly the four-tier priority chain of
the claim — in-reply-to resolution, backwards references walk,
minimum-patch-id among equal normalised subjects, series-key fallback —
and a patch is recorded as a thread root precisely when all four
strategies fail or it carries no threading hints. -/
theorem c2_four_tier_parent_discovery (rows : List ThreadPatch)
    (hid : (rows.map (fun p => p.patch_id)).Nodup) (r : ThreadPatch)
    (hr : r ∈ rows) :
    computeParent rows r = specFourTierParent rows r ∧
      (r ∈ rootPatches rows ↔ computeParent rows r = none) :=
  ⟨computeParent_eq_spec rows hid r hr, mem_rootPatches_iff rows hid r hr⟩

/-- Witness for C2 on a two-patch thread (a root and a reply linked by
`In-Reply-To`). -/
theorem c2_witness :
    computeParent
        [ThreadPatch.mk 1 "m1" "a" 10 none [] false none none,
         ThreadPatch.mk 2 "m2" "Re: a" 20 (some "m1") [] false none none]
        (ThreadPatch.mk 2 "m2" "Re: a" 20 (some "m1") [] false none none) =
      specFourTierParent
        [ThreadPatch.mk 1 "m1" "a" 10 none [] false none none,
         ThreadPatch.mk 2 "m2" "Re: a" 20 (some "m1") [] false none none]
        (ThreadPatch.mk 2 "m2" "Re: a" 20 (some "m1") [] false none none) ∧
      (ThreadPatch.mk 2 "m2" "Re: a" 20 (some "m1") [] false none none ∈
          rootPatches
            [ThreadPatch.mk 1 "m1" "a" 10 none [] false none none,
             ThreadPatch.mk 2 "m2" "Re: a" 20 (some "m1") [] false none none] ↔
        computeParent
          [ThreadPatch.mk 1 "m1" "a" 10 none [] false none none,
           ThreadPatch.mk 2 "m2" "Re: a" 20 (some "m1") [] false none none]
          (ThreadPatch.mk 2 "m2" "Re: a" 20 (some "m1") [] false none none) =
          none) :=
  c2_four_tier_parent_discovery _ (by decide) _ (by decide)

theorem hmGet_append_one_eq {β : Type} (m : List (String × β)) (k : String)
    (v : β) (h : hmGet m k = none) : hmGet (m ++ [(k, v)]) k = some v := by
  induction m with
  | nil => simp [hmGet]
  | cons a m ih =>
      cases ha : (a.1 == k)
      · rw [List.cons_append, hmGet_cons_ne _ _ _ ha]
        rw [hmGet_cons_ne _ _ _ ha] at h
        exact ih h
      · rw [hmGet_cons_eq _ _ _ ha] at h
        cases h

theorem any_of_hmGet_isSome {β : Type} (m : List (String × β)) (k : String)
    (h : (hmGet m k).isSome = true) :
    m.any (fun p => p.1 == k) = true := by
  induction m with
  | nil => simp [hmGet] at h
  | cons a m ih =>
      cases ha : (a.1 == k)
      · rw [hmGet_cons_ne _ _ _ ha] at h
        simp only [List.any_cons, ha, Bool.false_or]
        exact ih h
      · simp only [List.any_cons, ha, Bool.true_or]

theorem hmGet_mapIns_same {β : Type} (m : List (String × β)) (k : String)
    (v : β) (h : (hmGet m k).isSome = true) :
    hmGet (m.map (fun p => if p.1 == k then (k, v) else p)) k = some v := by
  induction m with
  | nil => simp [hmGet] at h
  | cons a m ih =>
      cases ha : (a.1 == k)
      · simp only [List.map_cons, ha, Bool.false_eq_true, if_false]
        rw [hmGet_cons_ne _ _ _ ha] at h
        rw [hmGet_cons_ne _ _ _ ha]
        exact ih h
      · simp only [List.map_cons, ha, if_true]
        rw [hmGet_cons_eq _ _ _ (by simp)]

theorem hmGet_hmInsert_same {β : Type} (m : List (String × β)) (k : String)
    (v : β) (h : (hmGet m k).isSome = true) :
    hmGet (hmInsert m k v) k = some v := by
  unfold hmInsert
  rw [if_pos (any_of_hmGet_isSome m k h)]
  exact hmGet_mapIns_same m k v h

theorem hmGet_mapIns_ne {β : Type} (m : List (String × β)) (k k2 : String)
    (v : β) (h : (k2 == k) = false) :
    hmGet (m.map (fun p => if p.1 == k then (k, v) else p)) k2 = hmGet m k2 := by
  induction m with
  | nil => rfl
  | cons b mrest ih =>
      cases hb : (b.1 == k)
      · simp only [List.map_cons, hb, Bool.false_eq_true, if_false]
        cases hb2 : (b.1 == k2)
        · rw [hmGet_cons_ne _ _ _ hb2, hmGet_cons_ne _ _ _ hb2, ih]
        · rw [hmGet_cons_eq _ _ _ hb2, hmGet_cons_eq _ _ _ hb2]
      · simp only [List.map_cons, hb, if_true]
        have hbk : b.1 = k := by simpa using hb
        have hb2 : (b.1 == k2) = false := by
          rw [hbk]
          exact beq_false_symm h
        rw [hmGet_cons_ne _ _ _ (beq_false_symm h),
          hmGet_cons_ne _ _ _ hb2, ih]

theorem hmGet_hmInsert_ne {β : Type} (m : List (String × β)) (k k2 : String)
    (v : β) (h : (k2 == k) = false) :
    hmGet (hmInsert m k v) k2 = hmGet m k2 := by
  unfold hmInsert
  cases ham : m.any (fun p => p.1 == k) with
  | false =>
      simp only [Bool.false_eq_true, if_false]
      exact hmGet_append_one_ne m k k2 v (beq_false_symm h)
  | true =>
      simp only [if_true]
      exact hmGet_mapIns_ne m k k2 v h

theorem seriesInv_k_extend (pre : List ThreadPatch) (x : ThreadPatch)
    (m2 : List (String × Int)) (k : String)
    (h1 : hmGet m2 k = none → ∀ p ∈ pre, seriesKeyOf p ≠ some k)
    (h2 : ∀ r : Int, hmGet m2 k = some r → ∃ p ∈ pre, p.patch_id = r ∧
      seriesKeyOf p = some k ∧ SeriesMin pre p k)
    (hxkey : seriesKeyOf x ≠ some k) :
    (hmGet m2 k = none → ∀ p ∈ pre ++ [x], seriesKeyOf p ≠ some k) ∧
    (∀ r : Int, hmGet m2 k = some r → ∃ p ∈ pre ++ [x], p.patch_id = r ∧
      seriesKeyOf p = some k ∧ SeriesMin (pre ++ [x]) p k) := by
  constructor
  · intro hn p hp
    rcases List.mem_append.mp hp with hp | hp
    · exact h1 hn p hp
    · rw [List.mem_singleton.mp hp]
      exact hxkey
  · intro r hr
    obtain ⟨p, hpmem, hpid, hpkey, hmin⟩ := h2 r hr
    refine ⟨p, List.mem_append_left _ hpmem, hpid, hpkey, ?_⟩
    intro q hq hqkey
    rcases List.mem_append.mp hq with hq | hq
    · exact hmin q hq hqkey
    · rw [List.mem_singleton.mp hq] at hqkey
      exact absurd hqkey hxkey

theorem seriesStep_inv (rows : List ThreadPatch)
    (hid : (rows.map (fun p => p.patch_id)).Nodup)
    (hnum : ∀ p ∈ rows, (seriesKeyOf p).isSome = true →
      p.series_number.isSome = true)
    (pre : List ThreadPatch) (x : ThreadPatch)
    (hx : x ∈ rows) (hpre : ∀ q ∈ pre, q ∈ rows)
    (hle : ∀ q ∈ pre, q.sent_at ≤ x.sent_at)
    (m : List (String × Int)) (hinv : SeriesInv pre m) :
    SeriesInv (pre ++ [x]) (seriesFoldStep rows m x) := by
  cases hkx : seriesKeyOf x with
  | none =>
      simp only [seriesFoldStep, hkx]
      intro k
      exact seriesInv_k_extend pre x m k (hinv k).1 (hinv k).2
        (by rw [hkx]; exact fun h => Option.noConfusion h)
  | some k0 =>
      simp only [seriesFoldStep, hkx]
      have hxnumS : x.series_number.isSome = true :=
        hnum x hx (by rw [hkx]; rfl)
      obtain ⟨nx, hxnum⟩ := Option.isSome_iff_exists.mp hxnumS
      cases hget : hmGet m k0 with
      | none =>
          have hstep : seriesEntryStep rows m x k0 = m ++ [(k0, x.patch_id)] := by
            unfold seriesEntryStep
            simp only [hget]
          rw [hstep]
          intro k
          by_cases hkk : k = k0
          · subst hkk
            constructor
            · intro hn
              rw [hmGet_append_one_eq m k x.patch_id hget] at hn
              cases hn
            · intro r hr
              rw [hmGet_append_one_eq m k x.patch_id hget] at hr
              have hrr := Option.some_inj.mp hr
              subst hrr
              refine ⟨x, List.mem_append_right _ (by simp), rfl, hkx, ?_⟩
              intro q hq hqkey
              rcases List.mem_append.mp hq with hq | hq
              · exact absurd hqkey ((hinv k).1 hget q hq)
              · rw [List.mem_singleton.mp hq]
                rw [List.mem_singleton.mp hq] at hqkey
                exact ⟨nx, nx, hxnum, hxnum, le_refl nx, fun _ => le_refl _⟩
          · have hkb : (k == k0) = false := beq_eq_false_iff_ne.mpr hkk
            have hsame : hmGet (m ++ [(k0, x.patch_id)]) k = hmGet m k :=
              hmGet_append_one_ne m k0 k x.patch_id (beq_false_symm hkb)
            rw [hsame]
            exact seriesInv_k_extend pre x m k (hinv k).1 (hinv k).2
              (by rw [hkx]; intro hcon; exact hkk (Option.some_inj.mp hcon).symm)
      | some root_id =>
          obtain ⟨p0, hp0mem, hp0pid, hp0key, hp0min⟩ :=
            (hinv k0).2 root_id hget
          have hp0numS : p0.series_number.isSome = true :=
            hnum p0 (hpre p0 hp0mem) (by rw [hp0key]; rfl)
          obtain ⟨np0, hp0num⟩ := Option.isSome_iff_exists.mp hp0numS
          have hfind : rows.find? (fun q => q.patch_id == root_id) = some p0 := by
            rw [← hp0pid]
            exact find?_patch_id_self hid (hpre p0 hp0mem)
          have hstep : seriesEntryStep rows m x k0 =
              if shouldReplace p0 x then hmInsert m k0 x.patch_id else m := by
            unfold seriesEntryStep
            simp only [hget, hfind]
          rw [hstep]
          by_cases hlt : nx < np0
          · have hrep : shouldReplace p0 x = true := by
              unfold shouldReplace
              rw [hp0num, hxnum]
              simp [hlt]
            rw [if_pos hrep]
            intro k
            by_cases hkk : k = k0
            · subst hkk
              have hgetIns : hmGet (hmInsert m k x.patch_id) k =
                  some x.patch_id :=
                hmGet_hmInsert_same m k x.patch_id (by rw [hget]; rfl)
              constructor
              · intro hn
                rw [hgetIns] at hn
                cases hn
              · intro r hr
                rw [hgetIns] at hr
                have hrr := Option.some_inj.mp hr
                subst hrr
                refine ⟨x, List.mem_append_right _ (by simp), rfl, hkx, ?_⟩
                intro q hq hqkey
                rcases List.mem_append.mp hq with hq | hq
                · obtain ⟨np0b, nq, hnumb, hqnum, hleb, _⟩ :=
                    hp0min q hq hqkey
                  rw [hp0num] at hnumb
                  have hnpb := Option.some_inj.mp hnumb
                  subst hnpb
                  refine ⟨nx, nq, hxnum, hqnum, by omega, fun heq => by omega⟩
                · rw [List.mem_singleton.mp hq]
                  exact ⟨nx, nx, hxnum, hxnum, le_refl nx, fun _ => le_refl _⟩
            · have hkb : (k == k0) = false := beq_eq_false_iff_ne.mpr hkk
              have hsame : hmGet (hmInsert m k0 x.patch_id) k = hmGet m k :=
                hmGet_hmInsert_ne m k0 k x.patch_id hkb
              rw [hsame]
              exact seriesInv_k_extend pre x m k (hinv k).1 (hinv k).2
                (by rw [hkx]; intro hcon; exact hkk (Option.some_inj.mp hcon).symm)
          · have hrep : shouldReplace p0 x = false := by
              unfold shouldReplace
              rw [hp0num, hxnum]
              simp [hlt]
            rw [if_neg (by rw [hrep]; exact fun hc => Bool.noConfusion hc)]
            intro k
            by_cases hkk : k = k0
            · subst hkk
              constructor
              · intro hn
                rw [hget] at hn
                cases hn
              · intro r hr
                rw [hget] at hr
                have hrr := Option.some_inj.mp hr
                subst hrr
                refine ⟨p0, List.mem_append_left _ hp0mem, hp0pid, hp0key, ?_⟩
                intro q hq hqkey
                rcases List.mem_append.mp hq with hq | hq
                · exact hp0min q hq hqkey
                · rw [List.mem_singleton.mp hq]
                  exact ⟨np0, nx, hp0num, hxnum, by omega,
                    fun _ => hle p0 hp0mem⟩
            · exact seriesInv_k_extend pre x m k (hinv k).1 (hinv k).2
                (by rw [hkx]; intro hcon; exact hkk (Option.some_inj.mp hcon).symm)

theorem seriesFold_inv (rows : List ThreadPatch)
    (hsorted : List.Pairwise (fun a b => a.sent_at ≤ b.sent_at) rows)
    (hid : (rows.map (fun p => p.patch_id)).Nodup)
    (hnum : ∀ p ∈ rows, (seriesKeyOf p).isSome = true →
      p.series_number.isSome = true) :
    ∀ (suffix pre : List ThreadPatch) (m : List (String × Int)),
      rows = pre ++ suffix → SeriesInv pre m →
      SeriesInv rows (suffix.foldl (seriesFoldStep rows) m) := by
  intro suffix
  induction suffix with
  | nil =>
      intro pre m heq hinv
      rw [List.foldl_nil]
      rw [List.append_nil] at heq
      rw [heq]
      exact hinv
  | cons x rest ih =>
      intro pre m heq hinv
      rw [List.foldl_cons]
      apply ih (pre ++ [x]) _ (by rw [heq]; simp)
      refine seriesStep_inv rows hid hnum pre x ?_ ?_ ?_ m hinv
      · rw [heq]
        exact List.mem_append_right _ (List.mem_cons_self _ _)
      · intro q hq
        rw [heq]
        exact List.mem_append_left _ hq
      · intro q hq
        rw [heq] at hsorted
        have hrel := (List.pairwise_append.mp hsorted).2.2
        exact hrel q hq x (List.mem_cons_self _ _)

/-- C3: for a patch table ordered by `sent_at` ascending (as the Thread
Builder's query guarantees), with distinct patch ids (the primary key)
and a series number on every row carrying a series key (as ingest writes
them), every series key recorded in `series_to_root` maps to the patch id
of a member of that series whose `series_number` is minimal, and whose
`sent_at` is earliest among the members sharing that minimal number. -/
theorem c3_series_root_selection (rows : List ThreadPatch)
    (hsorted : List.Pairwise (fun a b => a.sent_at ≤ b.sent_at) rows)
    (hid : (rows.map (fun p => p.patch_id)).Nodup)
    (hnum : ∀ p ∈ rows, (seriesKeyOf p).isSome = true →
      p.series_number.isSome = true)
    (k : String) (r : Int) (hget : hmGet (seriesToRoot rows) k = some r) :
    ∃ p ∈ rows, p.patch_id = r ∧ seriesKeyOf p = some k ∧
      SeriesMin rows p k := by
  have hbase : SeriesInv [] [] := by
    intro k2
    constructor
    · intro _ p hp
      simp at hp
    · intro r2 hr2
      simp [hmGet] at hr2
  have hinv := seriesFold_inv rows hsorted hid hnum rows [] []
    (by simp) hbase
  exact (hinv k).2 r hget

/-- Witness for C3 on a two-patch series `[PATCH v2 1/2]` / `[PATCH v2
2/2]`: the key `v2/2` maps to patch 1, the member with the lower series
number. -/
theorem c3_witness :
    ∃ p ∈ [ThreadPatch.mk 1 "m1" "[PATCH v2 1/2] a" 10 none [] true
            (some 1) (some 2),
           ThreadPatch.mk 2 "m2" "[PATCH v2 2/2] b" 20 none [] true
            (some 2) (some 2)],
      p.patch_id = 1 ∧ seriesKeyOf p = some "v2/2" ∧
        SeriesMin
          [ThreadPatch.mk 1 "m1" "[PATCH v2 1/2] a" 10 none [] true
            (some 1) (some 2),
           ThreadPatch.mk 2 "m2" "[PATCH v2 2/2] b" 20 none [] true
            (some 2) (some 2)] p "v2/2" :=
  c3_series_root_selection _ (by decide) (by decide) (by decide) "v2/2" 1
    (by decide)

theorem charToNat_ofNat_lt (m : Nat) (h : m < 55296) : (Char.ofNat m).toNat = m := by
  have hv : m.isValidChar := Or.inl h
  unfold Char.ofNat
  simp [hv, Char.ofNatAux, Char.toNat, UInt32.toNat]

theorem charToLower_toLower (c : Char) : c.toLower.toLower = c.toLower := by
  unfold Char.toLower
  by_cases h : c.toNat ≥ 65 ∧ c.toNat ≤ 90
  · rw [if_pos h]
    have h2 : (Char.ofNat (c.toNat + 32)).toNat = c.toNat + 32 := by
      apply charToNat_ofNat_lt
      omega
    rw [if_neg]
    omega
  · rw [if_neg h, if_neg h]

theorem ws_toNat_le (w : Char) (h : isWs w = true) : w.toNat ≤ 32 := by
  simp [isWs, Char.isWhitespace] at h
  rcases h with ((h | h) | h) | h <;> subst h <;> decide

theorem charToLower_not_ws (c : Char) (h : isWs c = false) :
    isWs c.toLower = false := by
  by_cases hc : c.toNat ≥ 65 ∧ c.toNat ≤ 90
  · have h2 : c.toLower.toNat = c.toNat + 32 := by
      unfold Char.toLower
      rw [if_pos hc]
      apply charToNat_ofNat_lt
      omega
    cases hw : isWs c.toLower
    · rfl
    · have := ws_toNat_le _ hw
      omega
  · rw [show c.toLower = c from by unfold Char.toLower; rw [if_neg hc]]
    exact h

theorem isPrefixL_iff {p l : List Char} : isPrefixL p l = true ↔ p <+: l := by
  induction p generalizing l with
  | nil => simp [isPrefixL]
  | cons a as ih =>
      cases l with
      | nil =>
          simp [isPrefixL]
      | cons b bs =>
          simp only [isPrefixL, Bool.and_eq_true, beq_iff_eq]
          rw [ih]
          constructor
          · rintro ⟨rfl, h⟩
            exact List.cons_prefix_cons.mpr ⟨rfl, h⟩
          · intro h
            rcases List.cons_prefix_cons.mp h with ⟨rfl, h2⟩
            exact ⟨rfl, h2⟩

theorem trimEndL_prefix_self (l : List Char) : trimEndL l <+: l := by
  unfold trimEndL
  rw [← List.reverse_suffix, List.reverse_reverse]
  exact List.dropWhile_suffix isWs

theorem mem_trimStartL {c : Char} {l : List Char} (h : c ∈ trimStartL l) :
    c ∈ l :=
  (List.dropWhile_suffix isWs).sublist.mem h

theorem mem_trimEndL {c : Char} {l : List Char} (h : c ∈ trimEndL l) :
    c ∈ l :=
  (trimEndL_prefix_self l).sublist.mem h

theorem mem_trimL {c : Char} {l : List Char} (h : c ∈ trimL l) : c ∈ l :=
  mem_trimStartL (mem_trimEndL h)

theorem mem_stripReplyMarksAux {c : Char} :
    ∀ (fuel : Nat) (l : List Char), c ∈ stripReplyMarksAux fuel l → c ∈ l := by
  intro fuel
  induction fuel with
  | zero => intro l h; exact h
  | succ fuel ih =>
      intro l h
      unfold stripReplyMarksAux at h
      cases hhit : replyMarkHit l with
      | none => rw [hhit] at h; exact h
      | some p =>
          rw [hhit] at h
          have h2 := ih _ h
          have h3 := mem_trimStartL h2
          exact (List.drop_suffix _ _).sublist.mem h3

/-- The first character, if any, is not whitespace. -/
def HeadNotWs (l : List Char) : Prop :=
  ∀ c : Char, l.head? = some c → isWs c = false

theorem headNotWs_dropWhile (l : List Char) : HeadNotWs (l.dropWhile isWs) := by
  induction l with
  | nil => intro c hc; cases hc
  | cons a rest ih =>
      intro c hc
      cases ha : isWs a
      · rw [List.dropWhile_cons, ha] at hc
        simp only [Bool.false_eq_true, if_false, List.head?_cons] at hc
        rw [← Option.some_inj.mp hc]
        exact ha
      · rw [List.dropWhile_cons, ha] at hc
        simp only [if_true] at hc
        exact ih c hc

theorem trimStartL_of_headNotWs {l : List Char} (h : HeadNotWs l) :
    trimStartL l = l := by
  cases l with
  | nil => rfl
  | cons a rest =>
      unfold trimStartL
      rw [List.dropWhile_cons, h a rfl]
      simp

theorem headNotWs_prefix_mono {l₁ l₂ : List Char} (hpre : l₁ <+: l₂)
    (h : HeadNotWs l₂) : HeadNotWs l₁ := by
  intro c hc
  obtain ⟨t, ht⟩ := hpre
  apply h
  rw [← ht]
  cases l₁ with
  | nil => cases hc
  | cons a tl =>
      rw [List.head?_cons] at hc
      rw [List.cons_append, List.head?_cons]
      exact hc

theorem headNotWs_trimEndL {l : List Char} (h : HeadNotWs l) :
    HeadNotWs (trimEndL l) :=
  headNotWs_prefix_mono (trimEndL_prefix_self l) h

theorem trimEndL_of_lastNotWs {l : List Char} (h : HeadNotWs l.reverse) :
    trimEndL l = l := by
  unfold trimEndL
  rw [show l.reverse.dropWhile isWs = trimStartL l.reverse from rfl,
    trimStartL_of_headNotWs h, List.reverse_reverse]

theorem reverse_trimEndL (l : List Char) :
    (trimEndL l).reverse = l.reverse.dropWhile isWs := by
  unfold trimEndL
  rw [List.reverse_reverse]

theorem headNotWs_trimL (l : List Char) : HeadNotWs (trimL l) :=
  headNotWs_trimEndL (headNotWs_dropWhile l)

theorem lastNotWs_trimL (l : List Char) : HeadNotWs (trimL l).reverse := by
  unfold trimL
  rw [reverse_trimEndL]
  exact headNotWs_dropWhile _

theorem trimL_of_fixed {l : List Char} (h1 : HeadNotWs l)
    (h2 : HeadNotWs l.reverse) : trimL l = l := by
  unfold trimL
  rw [trimStartL_of_headNotWs h1, trimEndL_of_lastNotWs h2]

theorem trimL_trimL (l : List Char) : trimL (trimL l) = trimL l :=
  trimL_of_fixed (headNotWs_trimL l) (lastNotWs_trimL l)

theorem collapse_cons_not_ws {c : Char} (rest : List Char)
    (h : isWs c = false) :
    collapseWsL (c :: rest) = c :: collapseWsL rest := by
  cases rest with
  | nil => simp [collapseWsL, h]
  | cons d r => simp [collapseWsL, h]

theorem collapse_head_ws {c : Char} (rest : List Char) (h : isWs c = true) :
    (collapseWsL (c :: rest)).head? = some ' ' := by
  induction rest generalizing c with
  | nil => simp [collapseWsL, h]
  | cons d r ih =>
      cases hd : isWs d
      · simp [collapseWsL, h, hd]
      · simp only [collapseWsL, h, if_true, hd]
        exact ih hd

theorem headNotWs_collapse {l : List Char} (h : HeadNotWs l) :
    HeadNotWs (collapseWsL l) := by
  cases l with
  | nil => intro c hc; cases hc
  | cons a rest =>
      intro c hc
      rw [collapse_cons_not_ws rest (h a rfl), List.head?_cons] at hc
      rw [← Option.some_inj.mp hc]
      exact h a rfl

theorem mem_collapse {c : Char} :
    ∀ {l : List Char}, c ∈ collapseWsL l → c = ' ' ∨ c ∈ l := by
  intro l
  induction l with
  | nil => intro h; cases h
  | cons a rest ih =>
      intro h
      cases ha : isWs a
      · rw [collapse_cons_not_ws rest ha] at h
        rcases List.mem_cons.mp h with rfl | h
        · exact Or.inr (List.mem_cons_self _ _)
        · rcases ih h with h | h
          · exact Or.inl h
          · exact Or.inr (List.mem_cons_of_mem _ h)
      · cases rest with
        | nil =>
            simp only [collapseWsL, ha, if_true] at h
            rcases List.mem_singleton.mp h with rfl
            exact Or.inl rfl
        | cons d r =>
            cases hd : isWs d
            · simp only [collapseWsL, ha, hd, Bool.false_eq_true, if_false,
                if_true] at h
              rcases List.mem_cons.mp h with rfl | h
              · exact Or.inl rfl
              · rcases ih h with h | h
                · exact Or.inl h
                · exact Or.inr (List.mem_cons_of_mem _ h)
            · simp only [collapseWsL, ha, hd, if_true] at h
              rcases ih h with h | h
              · exact Or.inl h
              · exact Or.inr (List.mem_cons_of_mem _ h)

theorem wsSp_collapse {c : Char} :
    ∀ {l : List Char}, c ∈ collapseWsL l → isWs c = true → c = ' ' := by
  intro l
  induction l with
  | nil => intro h; cases h
  | cons a rest ih =>
      intro h hws
      cases ha : isWs a
      · rw [collapse_cons_not_ws rest ha] at h
        rcases List.mem_cons.mp h with rfl | h
        · rw [ha] at hws; cases hws
        · exact ih h hws
      · cases rest with
        | nil =>
            simp only [collapseWsL, ha, if_true] at h
            exact List.mem_singleton.mp h
        | cons d r =>
            cases hd : isWs d
            · simp only [collapseWsL, ha, hd, Bool.false_eq_true, if_false,
                if_true] at h
              rcases List.mem_cons.mp h with rfl | h
              · rfl
              · exact ih h hws
            · simp only [collapseWsL, ha, hd, if_true] at h
              exact ih h hws

theorem noDoubleWsB_cons_not_ws {c : Char} {l : List Char}
    (h : isWs c = false) : noDoubleWsB (c :: l) = noDoubleWsB l := by
  cases l with
  | nil => simp [noDoubleWsB]
  | cons d r => simp [noDoubleWsB, h]

theorem noDoubleWsB_collapse : ∀ (l : List Char),
    noDoubleWsB (collapseWsL l) = true := by
  intro l
  induction l with
  | nil => rfl
  | cons a rest ih =>
      cases ha : isWs a
      · rw [collapse_cons_not_ws rest ha, noDoubleWsB_cons_not_ws ha]
        exact ih
      · cases rest with
        | nil => simp [collapseWsL, ha, noDoubleWsB]
        | cons d r =>
            cases hd : isWs d
            · simp only [collapseWsL, ha, hd, Bool.false_eq_true, if_false,
                if_true]
              rw [collapse_cons_not_ws r hd]
              rw [collapse_cons_not_ws r hd] at ih
              simp only [noDoubleWsB, hd]
              simp only [Bool.and_false, Bool.not_false, Bool.true_and]
              exact ih
            · simp only [collapseWsL, ha, hd, if_true]
              exact ih

theorem collapse_fixed : ∀ (l : List Char),
    (∀ c ∈ l, isWs c = true → c = ' ') → noDoubleWsB l = true →
    collapseWsL l = l := by
  intro l
  induction l with
  | nil => intro _ _; rfl
  | cons a rest ih =>
      intro hsp hnd
      cases ha : isWs a
      · rw [collapse_cons_not_ws rest ha]
        rw [noDoubleWsB_cons_not_ws ha] at hnd
        rw [ih (fun c hc => hsp c (List.mem_cons_of_mem _ hc)) hnd]
      · have hs : a = ' ' := hsp a (List.mem_cons_self _ _) ha
        cases rest with
        | nil =>
            simp [collapseWsL, ha, hs]
        | cons d r =>
            have hd : isWs d = false := by
              cases hd2 : isWs d
              · rfl
              · simp [noDoubleWsB, ha, hd2] at hnd
            simp only [collapseWsL, ha, hd, Bool.false_eq_true, if_false,
              if_true]
            have hnd2 : noDoubleWsB (d :: r) = true := by
              simp only [noDoubleWsB, ha, hd, Bool.and_false, Bool.not_false,
                Bool.true_and] at hnd
              exact hnd
            rw [ih (fun c hc => hsp c (List.mem_cons_of_mem _ hc)) hnd2, hs]

theorem noDoubleWsB_tail {c : Char} {l : List Char}
    (h : noDoubleWsB (c :: l) = true) : noDoubleWsB l = true := by
  cases l with
  | nil => rfl
  | cons d r =>
      simp only [noDoubleWsB, Bool.and_eq_true] at h
      exact h.2

theorem noDoubleWsB_suffix : ∀ (pre l : List Char),
    noDoubleWsB (pre ++ l) = true → noDoubleWsB l = true := by
  intro pre
  induction pre with
  | nil => intro l h; exact h
  | cons a rest ih =>
      intro l h
      exact ih l (noDoubleWsB_tail h)

theorem noDoubleWsB_prefix_mono : ∀ (l₁ l₂ : List Char), l₁ <+: l₂ →
    noDoubleWsB l₂ = true → noDoubleWsB l₁ = true := by
  intro l₁
  induction l₁ with
  | nil => intro l₂ _ _; rfl
  | cons a r₁ ih =>
      intro l₂ hpre h
      cases l₂ with
      | nil => cases List.eq_nil_of_prefix_nil hpre
      | cons b r₂ =>
          obtain ⟨rfl, hpre2⟩ := List.cons_prefix_cons.mp hpre
          cases r₁ with
          | nil => rfl
          | cons c rr₁ =>
              cases r₂ with
              | nil => cases List.eq_nil_of_prefix_nil hpre2
              | cons d rr₂ =>
                  obtain ⟨rfl, _⟩ := List.cons_prefix_cons.mp hpre2
                  simp only [noDoubleWsB, Bool.and_eq_true] at h ⊢
                  exact ⟨h.1, ih _ hpre2 h.2⟩

theorem collapse_prefix_transfer : ∀ (l p : List Char),
    (∀ c ∈ p, isWs c = false) → isPrefixL p (collapseWsL l) = true →
    isPrefixL p l = true := by
  intro l
  induction l with
  | nil =>
      intro p _ h
      cases p with
      | nil => rfl
      | cons a r => simp [collapseWsL, isPrefixL] at h
  | cons a rest ih =>
      intro p hws h
      cases p with
      | nil => rfl
      | cons x xs =>
          cases ha : isWs a
          · rw [collapse_cons_not_ws rest ha] at h
            simp only [isPrefixL, Bool.and_eq_true] at h ⊢
            exact ⟨h.1, ih xs (fun c hc => hws c (List.mem_cons_of_mem _ hc))
              h.2⟩
          · have hhead := collapse_head_ws rest ha
            cases hcol : collapseWsL (a :: rest) with
            | nil => rw [hcol] at h; simp [isPrefixL] at h
            | cons y ys =>
                rw [hcol] at hhead h
                rw [List.head?_cons] at hhead
                have hy := Option.some_inj.mp hhead
                subst hy
                simp only [isPrefixL, Bool.and_eq_true, beq_iff_eq] at h
                have hx : x = ' ' := h.1
                have := hws x (List.mem_cons_self _ _)
                rw [hx] at this
                cases this

theorem replyMarkHit_marker_cases {l p : List Char}
    (h : replyMarkHit l = some p) :
    p = "re:".toList ∨ p = "fwd:".toList ∨ p = "fw:".toList ∨
      p = "aw:".toList ∨ p = "[patch]".toList ∨ p = "[rfc]".toList := by
  unfold replyMarkHit at h
  repeat' split at h
  all_goals simp_all

theorem replyMarkHit_none_no_marker {l : List Char}
    (h : replyMarkHit l = none) {p : List Char}
    (hp : p = "re:".toList ∨ p = "fwd:".toList ∨ p = "fw:".toList ∨
      p = "aw:".toList ∨ p = "[patch]".toList ∨ p = "[rfc]".toList) :
    isPrefixL p l = false := by
  unfold replyMarkHit at h
  repeat' split at h
  all_goals rcases hp with rfl | rfl | rfl | rfl | rfl | rfl <;> simp_all

theorem marker_ws_free {p : List Char}
    (hp : p = "re:".toList ∨ p = "fwd:".toList ∨ p = "fw:".toList ∨
      p = "aw:".toList ∨ p = "[patch]".toList ∨ p = "[rfc]".toList) :
    ∀ c ∈ p, isWs c = false := by
  rcases hp with rfl | rfl | rfl | rfl | rfl | rfl <;> decide

theorem strip_no_hit : ∀ (fuel : Nat) (l : List Char), l.length ≤ fuel →
    replyMarkHit (stripReplyMarksAux fuel l) = none := by
  intro fuel
  induction fuel with
  | zero =>
      intro l hl
      have : l = [] := List.length_eq_zero.mp (Nat.le_zero.mp hl)
      subst this
      rfl
  | succ fuel ih =>
      intro l hl
      unfold stripReplyMarksAux
      cases hhit : replyMarkHit l with
      | none => exact hhit
      | some p =>
          obtain ⟨hpre, hplen⟩ := replyMarkHit_spec hhit
          have hple := isPrefixL_length_le hpre
          apply ih
          have h1 := dropWhile_length_le isWs (l.drop p.length)
          rw [List.length_drop] at h1
          unfold trimStartL
          omega

theorem stripAux_fixed {l : List Char} (h : replyMarkHit l = none) :
    ∀ (fuel : Nat), stripReplyMarksAux fuel l = l := by
  intro fuel
  cases fuel with
  | zero => rfl
  | succ fuel =>
      unfold stripReplyMarksAux
      rw [h]

theorem headNotWs_stripAux : ∀ (fuel : Nat) (l : List Char),
    HeadNotWs l → HeadNotWs (stripReplyMarksAux fuel l) := by
  intro fuel
  induction fuel with
  | zero => intro l h; exact h
  | succ fuel ih =>
      intro l h
      unfold stripReplyMarksAux
      cases hhit : replyMarkHit l with
      | none => exact h
      | some p => exact ih _ (headNotWs_dropWhile _)

theorem headNotWs_toLowerL {l : List Char} (h : HeadNotWs l) :
    HeadNotWs (toLowerL l) := by
  cases l with
  | nil => intro c hc; cases hc
  | cons a rest =>
      intro c hc
      simp only [toLowerL, List.map_cons, List.head?_cons] at hc
      rw [← Option.some_inj.mp hc]
      exact charToLower_not_ws a (h a rfl)

theorem lowerFixed_toLowerL {c : Char} {l : List Char} (h : c ∈ toLowerL l) :
    c.toLower = c := by
  obtain ⟨a, -, rfl⟩ := List.mem_map.mp h
  exact charToLower_toLower a

theorem map_toLower_fixed {l : List Char} (h : ∀ c ∈ l, c.toLower = c) :
    toLowerL l = l := by
  unfold toLowerL
  rw [List.map_congr_left h]
  exact List.map_id' l

theorem toList_asString (l : List Char) : l.asString.toList = l := rfl

theorem normalizeSubjectL_facts (x : List Char) :
    (∀ c ∈ normalizeSubjectL x, c.toLower = c) ∧
    trimL (normalizeSubjectL x) = normalizeSubjectL x ∧
    noDoubleWsB (normalizeSubjectL x) = true ∧
    replyMarkHit (normalizeSubjectL x) = none ∧
    (∀ c ∈ normalizeSubjectL x, isWs c = true → c = ' ') := by
  have f1 : HeadNotWs (stripReplyMarks (toLowerL (trimL x))) :=
    headNotWs_stripAux _ _ (headNotWs_toLowerL (headNotWs_trimL x))
  have f2 : HeadNotWs (collapseWsL (stripReplyMarks (toLowerL (trimL x)))) :=
    headNotWs_collapse f1
  have f3 : replyMarkHit (stripReplyMarks (toLowerL (trimL x))) = none :=
    strip_no_hit _ _ (Nat.le_refl _)
  have htr : ∀ (l : List Char), HeadNotWs l → trimL l = trimEndL l := by
    intro l h
    unfold trimL
    rw [trimStartL_of_headNotWs h]
  have f5 : normalizeSubjectL x =
      trimEndL (collapseWsL (stripReplyMarks (toLowerL (trimL x)))) := by
    unfold normalizeSubjectL
    exact htr _ f2
  have f6 : normalizeSubjectL x <+:
      collapseWsL (stripReplyMarks (toLowerL (trimL x))) := by
    rw [f5]
    exact trimEndL_prefix_self _
  have pU : ∀ c ∈ stripReplyMarks (toLowerL (trimL x)), c.toLower = c :=
    fun c hc => lowerFixed_toLowerL (mem_stripReplyMarksAux _ _ hc)
  have pV : ∀ c ∈ collapseWsL (stripReplyMarks (toLowerL (trimL x))),
      c.toLower = c := by
    intro c hc
    rcases mem_collapse hc with rfl | hc2
    · rfl
    · exact pU c hc2
  have pT : ∀ c ∈ normalizeSubjectL x, c.toLower = c :=
    fun c hc => pV c (f6.sublist.mem hc)
  have wsSpT : ∀ c ∈ normalizeSubjectL x, isWs c = true → c = ' ' :=
    fun c hc hw => wsSp_collapse (f6.sublist.mem hc) hw
  have ndT : noDoubleWsB (normalizeSubjectL x) = true :=
    noDoubleWsB_prefix_mono _ _ f6 (noDoubleWsB_collapse _)
  have trimT : trimL (normalizeSubjectL x) = normalizeSubjectL x := by
    unfold normalizeSubjectL
    exact trimL_trimL _
  have hitT : replyMarkHit (normalizeSubjectL x) = none := by
    cases hhit : replyMarkHit (normalizeSubjectL x) with
    | none => rfl
    | some p =>
        have hp6 := replyMarkHit_marker_cases hhit
        have hpre := (replyMarkHit_spec hhit).1
        have hpv : isPrefixL p
            (collapseWsL (stripReplyMarks (toLowerL (trimL x)))) = true :=
          isPrefixL_iff.mpr ((isPrefixL_iff.mp hpre).trans f6)
        have hpu : isPrefixL p (stripReplyMarks (toLowerL (trimL x))) = true :=
          collapse_prefix_transfer _ p (marker_ws_free hp6) hpv
        have hnone := replyMarkHit_none_no_marker f3 hp6
        rw [hpu] at hnone
        cases hnone
  exact ⟨pT, trimT, ndT, hitT, wsSpT⟩

theorem normalizeSubjectL_idem (x : List Char) :
    normalizeSubjectL (normalizeSubjectL x) = normalizeSubjectL x := by
  obtain ⟨pT, trimT, ndT, hitT, wsSpT⟩ := normalizeSubjectL_facts x
  conv_lhs => rw [normalizeSubjectL]
  rw [trimT, map_toLower_fixed pT,
    show stripReplyMarks (normalizeSubjectL x) = normalizeSubjectL x from
      stripAux_fixed hitT _,
    collapse_fixed _ wsSpT ndT, trimT]

/-- C10: `normalize_subject` is idempotent, and its output is lowercase
(every character is fixed by lowercasing), trimmed (no leading or
trailing whitespace), and has no run of two or more consecutive
whitespace characters. -/
theorem c10_normalize_subject_idempotent (s : String) :
    normalize_subject (normalize_subject s) = normalize_subject s ∧
    allLowerB (normalize_subject s).toList = true ∧
    trimL (normalize_subject s).toList = (normalize_subject s).toList ∧
    noDoubleWsB (normalize_subject s).toList = true := by
  obtain ⟨pT, trimT, ndT, -, -⟩ := normalizeSubjectL_facts s.toList
  have htl : (normalize_subject s).toList = normalizeSubjectL s.toList := by
    unfold normalize_subject
    exact toList_asString _
  refine ⟨?_, ?_, ?_, ?_⟩
  · unfold normalize_subject
    rw [toList_asString, normalizeSubjectL_idem]
  · rw [htl]
    apply List.all_eq_true.mpr
    intro c hc
    simp [pT c hc]
  · rw [htl, trimT]
  · rw [htl, ndT]
